import Mathlib

/-!
Verification of the codex-marketplace plugin manager core: the marker-block
codec over the shared `config.toml` (package `mcp`), the install ledger
(package `plugin`, `InstalledManager`), the artifact-name collision policy
(`internal/plugin/util.go`), and the install/uninstall/update orchestration
(`cmd/plugin.go`).

Texts are modelled as `List Char`. The Go `regexp` uses of the sources are
modelled by deterministic scanning functions that implement exactly the
leftmost, Perl-priority semantics of the concrete patterns appearing in the
code (each pattern is simple enough that greedy or lazy backtracking is
deterministic, which each model function realises directly).
-/

set_option maxRecDepth 4000

/-- Characters of a string literal, used to embed Go string constants. -/
def strChars (s : String) : List Char := s.data

/-- Go constant `MarkerStartPrefix`. -/
def markerStartLit : List Char := strChars "# [codex-market:start]"

/-- Go constant `MarkerEndPrefix`. -/
def markerEndLit : List Char := strChars "# [codex-market:end]"

/-- The literal the compiled start pattern of `RemoveMarkedBlock` begins with:
`MarkerStartPrefix + " plugin=" + pluginName` (quoted verbatim by
`regexp.QuoteMeta`). -/
def startLit (pluginName : String) : List Char :=
  markerStartLit ++ strChars " plugin=" ++ pluginName.data

/-- The literal the compiled end pattern of `RemoveMarkedBlock` is:
`MarkerEndPrefix + " plugin=" + pluginName`. -/
def endLit (pluginName : String) : List Char :=
  markerEndLit ++ strChars " plugin=" ++ pluginName.data

/-- Model of the regex fragment `[^\n]*\n` (also of `.*\n` in non-dot-all
mode): consume the rest of the current line and its terminating newline.
Returns `none` when no newline remains (the fragment then fails). -/
def dropThroughNL : List Char → Option (List Char)
  | [] => none
  | c :: cs => if c = '\n' then some cs else dropThroughNL cs

/-- Model of the fragment `\n?START` of `RemoveMarkedBlock`'s pattern at a
fixed position: `\n?` is greedy, so a leading newline is consumed first when
the start literal follows it. Returns the suffix after the start literal. -/
def tryStart (startL : List Char) (s : List Char) : Option (List Char) :=
  match s with
  | '\n' :: rest =>
    if startL.isPrefixOf rest then some (rest.drop startL.length)
    else if startL.isPrefixOf s then some (s.drop startL.length)
    else none
  | _ => if startL.isPrefixOf s then some (s.drop startL.length) else none

/-- Model of the trailing `\n?` after the end literal (greedy). -/
def dropOptNL : List Char → List Char
  | '\n' :: t => t
  | s => s

/-- Model of the fragment `(?:.*\n)*?END\n?`: starting at a line boundary,
lazily consume whole lines until one begins with the end literal, consume the
literal and an optional newline. `atStart` tracks whether the scan position is
at a line start (the lazy group aligns the literal test to line starts). -/
def findEnd (endL : List Char) : Bool → List Char → Option (List Char)
  | atStart, [] => if atStart && endL.isPrefixOf [] then some [] else none
  | atStart, c :: cs =>
    if atStart && endL.isPrefixOf (c :: cs) then
      some (dropOptNL ((c :: cs).drop endL.length))
    else
      findEnd endL (c = '\n') cs

/-- One attempted match of the full pattern
`\n?START[^\n]*\n(?:.*\n)*?END\n?` at the head of `s`; on success returns the
suffix following the match. -/
def matchAt (startL endL : List Char) (s : List Char) : Option (List Char) :=
  (tryStart startL s).bind fun t =>
    (dropThroughNL t).bind fun u => findEnd endL true u

/-- Model of `regexp.ReplaceAllString(content, "")`: scan left to right, at
each position attempt a match; on success drop the matched span and resume
scanning after it (Go does not rescan the seam). The fuel argument is always
run with at least `s.length` and only bounds the recursion. -/
def removeFromFuel (startL endL : List Char) : Nat → List Char → List Char
  | 0, s => s
  | fuel + 1, s =>
    match matchAt startL endL s with
    | some rest => removeFromFuel startL endL fuel rest
    | none =>
      match s with
      | [] => []
      | c :: cs => c :: removeFromFuel startL endL fuel cs

/-- Go `RemoveMarkedBlock(content, pluginName)` (file `mcp`): delete every
occurrence of the marked block pattern for `pluginName`. -/
def RemoveMarkedBlock (content : List Char) (pluginName : String) : List Char :=
  removeFromFuel (startLit pluginName) (endLit pluginName) content.length content

/-- Go `strings.TrimRight(s, "\n")`. -/
def trimRightNL (s : List Char) : List Char :=
  (s.reverse.dropWhile (· = '\n')).reverse

/-- Substring occurrence test: `hasSub s pat = true` iff `pat` occurs as a
contiguous run somewhere in `s`. -/
def hasSub : List Char → List Char → Bool
  | s, pat =>
    pat.isPrefixOf s ||
      match s with
      | [] => false
      | _ :: cs => hasSub cs pat

/-- Go `MCPServerConfig` (file `mcp`). The `Env` map is modelled as an
association list; Go map iteration order is arbitrary, and every consumer
below either sorts keys before emitting or is stated up to membership. -/
structure MCPServerConfig where
  type : String := ""
  command : String := ""
  url : String := ""
  cwd : String := ""
  args : List String := []
  env : List (String × String) := []
deriving DecidableEq, Inhabited

/-- Go `EnvVarMismatch` (file `mcp`). -/
structure EnvVarMismatch where
  key : String
  varName : String
deriving DecidableEq

/-- Hexadecimal digit characters as produced by Go `encoding/hex` and by
`strconv` escape sequences. -/
def hexDigitChar (n : Nat) : Char :=
  match n with
  | 0 => '0' | 1 => '1' | 2 => '2' | 3 => '3' | 4 => '4' | 5 => '5'
  | 6 => '6' | 7 => '7' | 8 => '8' | 9 => '9' | 10 => 'a' | 11 => 'b'
  | 12 => 'c' | 13 => 'd' | 14 => 'e' | _ => 'f'

/-- One character of Go `fmt %q` output (`strconv.Quote`): quote and
backslash are escaped, the named control escapes are used, other ASCII
printables pass through, remaining control bytes become `\xNN`. Non-ASCII
runes are emitted verbatim (Go additionally consults Unicode printability
tables for them; every input in this development is ASCII, where the model
is exact). -/
def escapeChar (c : Char) : List Char :=
  if c = '"' then ['\\', '"']
  else if c = '\\' then ['\\', '\\']
  else if c = Char.ofNat 7 then ['\\', 'a']
  else if c = Char.ofNat 8 then ['\\', 'b']
  else if c = Char.ofNat 12 then ['\\', 'f']
  else if c = '\n' then ['\\', 'n']
  else if c = Char.ofNat 13 then ['\\', 'r']
  else if c = Char.ofNat 9 then ['\\', 't']
  else if c = Char.ofNat 11 then ['\\', 'v']
  else if 0x20 ≤ c.toNat ∧ c.toNat ≤ 0x7e then [c]
  else if c.toNat < 0x20 ∨ c.toNat = 0x7f then
    ['\\', 'x', hexDigitChar (c.toNat / 16), hexDigitChar (c.toNat % 16)]
  else [c]

/-- Go `fmt.Sprintf("%q", s)` for strings. -/
def goQuote (s : String) : List Char :=
  '"' :: (s.data.map escapeChar).flatten ++ ['"']

/-- First character of an environment-variable name, `[A-Za-z_]`. -/
def isVarStartChar (c : Char) : Bool :=
  c.isAlpha || c = '_'

/-- Later characters of an environment-variable name, `[A-Za-z0-9_]`. -/
def isVarChar (c : Char) : Bool :=
  c.isAlpha || c.isDigit || c = '_'

/-- Model of `envRefPattern.FindStringSubmatch` for the anchored pattern
`^\$\{?([A-Za-z_][A-Za-z0-9_]*)\}?$` in `writeMCPConfigToTOML`: returns the
captured variable name when the whole value is a reference. The two brace
quantifiers are independent, exactly as in the pattern. -/
def envRefName (v : List Char) : Option (List Char) :=
  match v with
  | '$' :: w =>
    let x := match w with
             | '\x7b' :: y => y
             | _ => w
    match x with
    | c :: cs =>
      if isVarStartChar c then
        let nm := c :: cs.takeWhile isVarChar
        match cs.dropWhile isVarChar with
        | [] => some nm
        | ['\x7d'] => some nm
        | _ => none
      else none
    | [] => none
  | _ => none

/-- Lexicographic comparison of character lists; on UTF-8 encoded strings Go
string order (`<`, used by `sort.Strings`) coincides with lexicographic
code-point order. -/
def charListLe : List Char → List Char → Bool
  | [], _ => true
  | _ :: _, [] => false
  | a :: as, b :: bs => if a = b then charListLe as bs else decide (a < b)

/-- Go string order. -/
def strLeb (a b : String) : Bool := charListLe a.data b.data

/-- Go `sort.Strings`: sort ascending (insertion sort is extensionally the
same as any sort for a total order on the elements). -/
def sortStrings (l : List String) : List String :=
  l.insertionSort (fun a b => strLeb a b = true)

/-- The forwarded-variable key list of `writeMCPConfigToTOML`: keys of env
bindings whose value matches the reference pattern, sorted
(`sort.Strings`). -/
def envVarsOf (cfg : MCPServerConfig) : List String :=
  sortStrings ((cfg.env.filter (fun kv => (envRefName kv.2.data).isSome)).map Prod.fst)

/-- The literal-value bindings of `writeMCPConfigToTOML` (`literalEnv`), in
iteration order. -/
def literalEnvOf (cfg : MCPServerConfig) : List (String × String) :=
  cfg.env.filter (fun kv => (envRefName kv.2.data).isNone)

/-- The sorted key list of the literal-value sub-table (`envKeys`). -/
def literalKeysOf (cfg : MCPServerConfig) : List String :=
  sortStrings ((literalEnvOf cfg).map Prod.fst)

/-- Go map read `literalEnv[k]`. -/
def lookupEnvValue (env : List (String × String)) (k : String) : String :=
  ((env.find? (fun kv => kv.1 = k)).map Prod.snd).getD ""

/-- The mismatch list of `writeMCPConfigToTOML`: a `EnvVarMismatch` for every
reference binding whose key differs from the referenced variable name. -/
def mismatchesOf (cfg : MCPServerConfig) : List EnvVarMismatch :=
  cfg.env.filterMap (fun kv =>
    match envRefName kv.2.data with
    | some nm => if kv.1 ≠ String.mk nm then some ⟨kv.1, String.mk nm⟩ else none
    | none => none)

/-- A literal env line `k = <quoted v>` as written by
`fmt.Sprintf("%s = %q\n", k, literalEnv[k])` (without its newline). -/
def envLiteralLine (k v : String) : List Char :=
  k.data ++ strChars " = " ++ goQuote v

/-- The lines (each still to be newline-terminated) written by Go
`writeMCPConfigToTOML` for one server. Every `WriteString` of the source ends
at a line boundary, so the emission is presented line-by-line; joining with
newlines below reproduces the emitted bytes exactly. -/
def serverLines (name : String) (cfg : MCPServerConfig) : List (List Char) :=
  (if cfg.type ≠ "" then [strChars "type = " ++ goQuote cfg.type] else []) ++
  (if cfg.command ≠ "" then [strChars "command = " ++ goQuote cfg.command] else []) ++
  (if cfg.url ≠ "" then [strChars "url = " ++ goQuote cfg.url] else []) ++
  (if cfg.args ≠ [] then
    strChars "args = [" ::
      cfg.args.map (fun a => strChars "  " ++ goQuote a ++ [',']) ++ [[']']]
   else []) ++
  (if cfg.env ≠ [] then
    (if envVarsOf cfg ≠ [] then
      strChars "env_vars = [" ::
        (envVarsOf cfg).map (fun k => strChars "  " ++ goQuote k ++ [',']) ++ [[']']]
     else []) ++
    (if literalEnvOf cfg ≠ [] then
      [] :: (strChars "[mcp_servers." ++ goQuote name ++ strChars ".env]") ::
        (literalKeysOf cfg).map
          (fun k => envLiteralLine k (lookupEnvValue (literalEnvOf cfg) k))
     else [])
   else [])

/-- Join lines, terminating each with a newline. -/
def joinLines (ls : List (List Char)) : List Char :=
  (ls.map (fun l => l ++ ['\n'])).flatten

/-- Go map read `servers[name]`. -/
def lookupServer (servers : List (String × MCPServerConfig)) (name : String) :
    MCPServerConfig :=
  ((servers.find? (fun b => b.1 = name)).map Prod.snd).getD {}

/-- Sorted server names (`sort.Strings(serverNames)`). -/
def sortedServerNames (servers : List (String × MCPServerConfig)) : List String :=
  sortStrings (servers.map Prod.fst)

/-- The middle lines of the generated block: per server (in sorted name
order) the section header `[mcp_servers."name"]`, the server body, and the
blank separator line. -/
def blockBodyLines (servers : List (String × MCPServerConfig)) :
    List (List Char) :=
  ((sortedServerNames servers).map (fun n =>
    (strChars "[mcp_servers." ++ goQuote n ++ [']']) ::
      serverLines n (lookupServer servers n) ++ [[]])).flatten

/-- Go `GenerateMCPServerTOML(pluginName, marketplace, servers)`: the marked
block text. A leading newline, the start-marker line, the per-server
sections, the end-marker line. -/
def GenerateMCPServerTOML (pluginName marketplace : String)
    (servers : List (String × MCPServerConfig)) : List Char :=
  '\n' :: joinLines
    ((startLit pluginName ++ strChars " marketplace=" ++ marketplace.data) ::
      blockBodyLines servers ++ [endLit pluginName])

/-- The mismatch list returned by `GenerateMCPServerTOML` (accumulated over
servers in sorted name order). -/
def generateMismatches (servers : List (String × MCPServerConfig)) :
    List EnvVarMismatch :=
  ((sortedServerNames servers).map (fun n => mismatchesOf (lookupServer servers n))).flatten

/-- Go `AddMCPServers` content transformation (the pure core of the function;
reading a missing file yields empty content, and the result is written back):
remove the plugin's existing marked block, then append a freshly generated
block after trimming trailing newlines. -/
def AddMCPServers (content : List Char) (pluginName marketplace : String)
    (servers : List (String × MCPServerConfig)) : List Char :=
  trimRightNL (RemoveMarkedBlock content pluginName) ++
    '\n' :: GenerateMCPServerTOML pluginName marketplace servers

/-- Go `InstalledPluginEntry` (package `plugin`): one installation record.
Artifact lists keep (name, path) pairs; `mcpServers` keeps (name, plugin). -/
structure InstalledPluginEntry where
  scope : String := ""
  projectPath : String := ""
  version : String := ""
  installedAt : String := ""
  lastUpdated : String := ""
  sourceMarketplace : String := ""
  sourceURL : String := ""
  sourceCachePath : String := ""
  skills : List (String × String) := []
  commands : List (String × String) := []
  mcpServers : List (String × String) := []
deriving DecidableEq, Inhabited

/-- The `Plugins` map of Go `InstalledPlugins`, as an association list
(Go maps have unique keys; all operations below preserve key uniqueness and
are stated through `getKey`, the map read). -/
abbrev Ledger := List (String × List InstalledPluginEntry)

/-- Map read `plugins.Plugins[pid]` distinguishing an absent key from a
present one. -/
def getKey (l : Ledger) (pid : String) : Option (List InstalledPluginEntry) :=
  (List.find? (fun b => b.1 = pid) l).map Prod.snd

/-- Map read with Go's zero value for a missing key (`nil` slice). -/
def entriesOf (l : Ledger) (pid : String) : List InstalledPluginEntry :=
  (getKey l pid).getD []

/-- Map write `plugins.Plugins[pid] = v`. -/
def setKey (l : Ledger) (pid : String) (v : List InstalledPluginEntry) : Ledger :=
  l.filter (fun b => b.1 ≠ pid) ++ [(pid, v)]

/-- Map delete `delete(plugins.Plugins, pid)`. -/
def eraseKey (l : Ledger) (pid : String) : Ledger :=
  l.filter (fun b => b.1 ≠ pid)

/-- The entry-list update of `InstalledManager.Add`: the first entry with the
same (scope, projectPath) is replaced in place, otherwise the new entry is
appended. -/
def addEntry : List InstalledPluginEntry → InstalledPluginEntry →
    List InstalledPluginEntry
  | [], e => [e]
  | x :: xs, e =>
    if x.scope = e.scope ∧ x.projectPath = e.projectPath then e :: xs
    else x :: addEntry xs e

/-- The per-entry removal predicate of `InstalledManager.RemoveByScope`
(the `switch scope` block; any other scope removes nothing). -/
def shouldRemove (scope projectPath : String) (e : InstalledPluginEntry) : Bool :=
  if scope = "all" then true
  else if scope = "global" then e.scope = "global"
  else if scope = "project" then e.scope = "project" ∧ e.projectPath = projectPath
  else false

namespace InstalledManager

/-- Go `InstalledManager.Add(pluginID, entry)`: load, update the plugin's
entry list, save. -/
def Add (plugins : Ledger) (pluginID : String) (entry : InstalledPluginEntry) :
    Ledger :=
  setKey plugins pluginID (addEntry (entriesOf plugins pluginID) entry)

/-- Go `InstalledManager.RemoveByScope(pluginID, scope, projectPath)`: split
the plugin's entries into removed and remaining (one pass in the source,
equal to the two filters); an empty entry list returns early without saving;
when nothing remains the plugin key is deleted. Returns the saved ledger and
the removed entries. -/
def RemoveByScope (plugins : Ledger) (pluginID scope projectPath : String) :
    Ledger × List InstalledPluginEntry :=
  let entries := entriesOf plugins pluginID
  if entries = [] then (plugins, [])
  else
    let removed := entries.filter (shouldRemove scope projectPath)
    let remaining := entries.filter (fun e => !(shouldRemove scope projectPath e))
    if remaining = [] then (eraseKey plugins pluginID, removed)
    else (setKey plugins pluginID remaining, removed)

/-- Go `InstalledManager.GetByScope(pluginID, scope, projectPath)`. -/
def GetByScope (plugins : Ledger) (pluginID scope projectPath : String) :
    List InstalledPluginEntry :=
  let entries := entriesOf plugins pluginID
  if scope = "all" then entries
  else
    entries.filter (fun e =>
      if scope = "global" then e.scope = "global"
      else if scope = "project" then e.scope = "project" ∧ e.projectPath = projectPath
      else false)

/-- Go `InstalledManager.Exists(pluginID)`: a plugin is installed when its
entry list is non-empty. -/
def ExistsInstalled (plugins : Ledger) (pluginID : String) : Bool :=
  entriesOf plugins pluginID ≠ []

end InstalledManager

theorem find?_filter_of_imp {α : Type} (l : List α) (p q : α → Bool)
    (h : ∀ b, p b = true → q b = true) :
    List.find? p (l.filter q) = List.find? p l := by
  induction l with
  | nil => rfl
  | cons x xs ih =>
    by_cases hq : q x = true
    · simp only [List.filter_cons, hq, if_pos]
      by_cases hp : p x = true
      · simp [List.find?, hp]
      · simp only [List.find?, hp]
        simpa [Bool.not_eq_true] using ih
    · have hp : p x = false := by
        cases hpx : p x with
        | false => rfl
        | true => exact absurd (h x hpx) hq
      simp [List.filter_cons, hq, List.find?, hp, ih]

theorem getKey_setKey_same (l : Ledger) (pid : String)
    (v : List InstalledPluginEntry) : getKey (setKey l pid v) pid = some v := by
  unfold getKey setKey
  have hnone : List.find? (fun b => decide (b.1 = pid))
      (l.filter (fun b => decide ¬ b.1 = pid)) = none := by
    rw [List.find?_eq_none]
    intro x hx
    have := (List.mem_filter.mp hx).2
    simpa using this
  rw [List.find?_append, hnone]
  simp [List.find?]

theorem getKey_setKey_other (l : Ledger) (pid pid' : String)
    (v : List InstalledPluginEntry) (h : pid' ≠ pid) :
    getKey (setKey l pid v) pid' = getKey l pid' := by
  unfold getKey setKey
  rw [List.find?_append]
  have h2 : List.find? (fun b => decide (b.1 = pid')) [(pid, v)] = none := by
    simp [List.find?, Ne.symm h]
  have h1 : List.find? (fun b => decide (b.1 = pid'))
      (l.filter (fun b => decide ¬ b.1 = pid)) =
      List.find? (fun b => decide (b.1 = pid')) l := by
    apply find?_filter_of_imp
    intro b hb
    have : b.1 = pid' := by simpa using hb
    simp [this, h]
  rw [h1, h2]
  cases List.find? (fun b => decide (b.1 = pid')) l <;> rfl

theorem getKey_eraseKey_same (l : Ledger) (pid : String) :
    getKey (eraseKey l pid) pid = none := by
  unfold getKey eraseKey
  have : List.find? (fun b => decide (b.1 = pid))
      (l.filter (fun b => decide ¬ b.1 = pid)) = none := by
    rw [List.find?_eq_none]
    intro x hx
    have := (List.mem_filter.mp hx).2
    simpa using this
  rw [this]
  rfl

theorem getKey_eraseKey_other (l : Ledger) (pid pid' : String) (h : pid' ≠ pid) :
    getKey (eraseKey l pid) pid' = getKey l pid' := by
  unfold getKey eraseKey
  rw [find?_filter_of_imp]
  intro b hb
  have : b.1 = pid' := by simpa using hb
  simp [this, h]

/-- Two ledger entries carry the same installation key (same scope and, for
project scope, the same project path; together with the plugin id map key
this is the (pluginID, scope, projectPath) triple of the spec). -/
def sameKey (a b : InstalledPluginEntry) : Prop :=
  a.scope = b.scope ∧ a.projectPath = b.projectPath

instance (a b : InstalledPluginEntry) : Decidable (sameKey a b) :=
  instDecidableAnd

/-- An entry list holds at most one entry per (scope, projectPath) key. -/
def KeyUnique (l : List InstalledPluginEntry) : Prop :=
  List.Pairwise (fun a b => ¬ sameKey a b) l

instance (l : List InstalledPluginEntry) : Decidable (KeyUnique l) :=
  List.instDecidablePairwise l

theorem mem_addEntry {l : List InstalledPluginEntry}
    {e b : InstalledPluginEntry} (h : b ∈ addEntry l e) : b = e ∨ b ∈ l := by
  induction l with
  | nil => simp [addEntry] at h; exact Or.inl h
  | cons x xs ih =>
    unfold addEntry at h
    by_cases hc : x.scope = e.scope ∧ x.projectPath = e.projectPath
    · rw [if_pos hc] at h
      rcases List.mem_cons.mp h with h1 | h1
      · exact Or.inl h1
      · exact Or.inr (List.mem_cons_of_mem _ h1)
    · rw [if_neg hc] at h
      rcases List.mem_cons.mp h with h1 | h1
      · exact Or.inr (h1 ▸ List.mem_cons_self x xs)
      · rcases ih h1 with h2 | h2
        · exact Or.inl h2
        · exact Or.inr (List.mem_cons_of_mem _ h2)

theorem keyUnique_addEntry {l : List InstalledPluginEntry}
    (e : InstalledPluginEntry) (h : KeyUnique l) : KeyUnique (addEntry l e) := by
  induction l with
  | nil => simp [addEntry, KeyUnique]
  | cons x xs ih =>
    rcases List.pairwise_cons.mp h with ⟨hx, hxs⟩
    unfold addEntry
    by_cases hc : x.scope = e.scope ∧ x.projectPath = e.projectPath
    · rw [if_pos hc]
      refine List.pairwise_cons.mpr ⟨?_, hxs⟩
      intro b hb hkey
      exact hx b hb ⟨hc.1.trans hkey.1, hc.2.trans hkey.2⟩
    · rw [if_neg hc]
      refine List.pairwise_cons.mpr ⟨?_, ih hxs⟩
      intro b hb
      rcases mem_addEntry hb with rfl | hb2
      · exact fun hkey => hc ⟨hkey.1, hkey.2⟩
      · exact hx b hb2

theorem entriesOf_Add_same (L : Ledger) (pid : String)
    (e : InstalledPluginEntry) :
    entriesOf (InstalledManager.Add L pid e) pid =
      addEntry (entriesOf L pid) e := by
  unfold InstalledManager.Add entriesOf
  rw [getKey_setKey_same]
  rfl

theorem entriesOf_Add_other (L : Ledger) (pid pid' : String)
    (e : InstalledPluginEntry) (h : pid' ≠ pid) :
    entriesOf (InstalledManager.Add L pid e) pid' = entriesOf L pid' := by
  unfold InstalledManager.Add entriesOf
  rw [getKey_setKey_other _ _ _ _ h]

/-- Claim C4: for every ledger state and every sequence of Add
(install/upsert) operations, the ledger never holds more than one entry for
the same (pluginID, scope, projectPath) triple: an Add whose key is already
present replaces that entry in place rather than appending a second entry. -/
theorem c4_add_preserves_key_uniqueness (L : Ledger)
    (ops : List (String × InstalledPluginEntry))
    (h : ∀ pid, KeyUnique (entriesOf L pid)) :
    ∀ pid, KeyUnique (entriesOf
      (ops.foldl (fun acc pe => InstalledManager.Add acc pe.1 pe.2) L) pid) := by
  induction ops generalizing L with
  | nil => exact h
  | cons op ops ih =>
    simp only [List.foldl_cons]
    refine ih _ ?_
    intro pid
    by_cases hpid : pid = op.1
    · subst hpid
      rw [entriesOf_Add_same]
      exact keyUnique_addEntry _ (h _)
    · rw [entriesOf_Add_other _ _ _ _ hpid]
      exact h pid

/-- Claim C4 witness: a concrete run in which the same key is added twice and
a second key once, starting from the empty ledger. -/
theorem c4_add_preserves_key_uniqueness_witness :
    KeyUnique (entriesOf
      (([("p@m", { scope := "global", version := "1" }),
         ("p@m", { scope := "global", version := "2" }),
         ("p@m", { scope := "project", projectPath := "/a" })]
         : List (String × InstalledPluginEntry)).foldl
        (fun acc pe => InstalledManager.Add acc pe.1 pe.2) []) "p@m") :=
  c4_add_preserves_key_uniqueness [] _ (fun _ => List.Pairwise.nil) "p@m"

/-- Claim C5: RemoveByScope with scope "all" removes every entry of the
plugin, with "global" exactly the global-scoped ones, with "project" exactly
the project-scoped ones whose projectPath equals the supplied current
directory; it returns exactly the removed entries, keeps exactly the others
(other projects untouched), and leaves every other plugin's ledger entry
unchanged — the ledger document is the only thing it mutates. -/
theorem c5_removeByScope_spec (L : Ledger) (pid scope path : String) :
    (InstalledManager.RemoveByScope L pid scope path).2 =
      (entriesOf L pid).filter (shouldRemove scope path) ∧
    entriesOf (InstalledManager.RemoveByScope L pid scope path).1 pid =
      (entriesOf L pid).filter (fun e => !(shouldRemove scope path e)) ∧
    (∀ pid', pid' ≠ pid →
      getKey (InstalledManager.RemoveByScope L pid scope path).1 pid' =
        getKey L pid') ∧
    (scope = "all" →
      (InstalledManager.RemoveByScope L pid scope path).2 = entriesOf L pid) ∧
    (scope = "global" →
      (InstalledManager.RemoveByScope L pid scope path).2 =
        (entriesOf L pid).filter (fun e => e.scope = "global")) ∧
    (scope = "project" →
      (InstalledManager.RemoveByScope L pid scope path).2 =
        (entriesOf L pid).filter
          (fun e => e.scope = "project" ∧ e.projectPath = path)) := by
  have main :
      (InstalledManager.RemoveByScope L pid scope path).2 =
        (entriesOf L pid).filter (shouldRemove scope path) ∧
      entriesOf (InstalledManager.RemoveByScope L pid scope path).1 pid =
        (entriesOf L pid).filter (fun e => !(shouldRemove scope path e)) ∧
      (∀ pid', pid' ≠ pid →
        getKey (InstalledManager.RemoveByScope L pid scope path).1 pid' =
          getKey L pid') := by
    unfold InstalledManager.RemoveByScope
    by_cases h0 : entriesOf L pid = []
    · rw [if_pos h0]
      refine ⟨by rw [h0]; rfl, by rw [h0]; simp [h0], fun pid' _ => rfl⟩
    · rw [if_neg h0]
      by_cases h1 : (entriesOf L pid).filter
          (fun e => !(shouldRemove scope path e)) = []
      · rw [if_pos h1]
        refine ⟨rfl, ?_, fun pid' hne => getKey_eraseKey_other _ _ _ hne⟩
        unfold entriesOf
        rw [getKey_eraseKey_same]
        exact h1.symm
      · rw [if_neg h1]
        refine ⟨rfl, ?_, fun pid' hne => getKey_setKey_other _ _ _ _ hne⟩
        unfold entriesOf
        rw [getKey_setKey_same]
        rfl
  refine ⟨main.1, main.2.1, main.2.2, ?_, ?_, ?_⟩
  · intro hs
    rw [main.1, hs]
    simp [shouldRemove]
  · intro hs
    rw [main.1, hs]
    exact List.filter_congr (fun e _ => by simp [shouldRemove])
  · intro hs
    rw [main.1, hs]
    exact List.filter_congr (fun e _ => by simp [shouldRemove])

/-- Claim C5 witness: a ledger with one global entry, two project entries in
different directories, and a second plugin; project-scoped removal from
`/proj1`. -/
theorem c5_removeByScope_spec_witness :
    (InstalledManager.RemoveByScope
       [("p@m", [{ scope := "global" }, { scope := "project", projectPath := "/proj1" },
                 { scope := "project", projectPath := "/proj2" }]),
        ("q@m", [{ scope := "global" }])]
       "p@m" "project" "/proj1").2 =
      [{ scope := "project", projectPath := "/proj1" }] ∧
    ("project" : String) = "project" := by
  have h := c5_removeByScope_spec
    [("p@m", [{ scope := "global" }, { scope := "project", projectPath := "/proj1" },
              { scope := "project", projectPath := "/proj2" }]),
     ("q@m", [{ scope := "global" }])]
    "p@m" "project" "/proj1"
  refine ⟨?_, rfl⟩
  rw [h.1]
  decide

/-- Claim C10 (implicit): whenever RemoveByScope removes the last remaining
entry for a pluginID, the pluginID key itself is deleted from the plugins map
before saving, so a call never persists a ledger mapping the pluginID to an
empty entry list, and Exists(pluginID) is false afterwards. (The hypothesis
rules out a ledger that already maps the key to an empty list; such a ledger
is returned unchanged by the early return, which performs no save.) -/
theorem c10_removeByScope_no_empty_entry_list (L : Ledger)
    (pid scope path : String) (h : getKey L pid ≠ some []) :
    getKey (InstalledManager.RemoveByScope L pid scope path).1 pid ≠ some [] ∧
    (((InstalledManager.RemoveByScope L pid scope path).2 ≠ [] ∧
      (entriesOf L pid).filter (fun e => !(shouldRemove scope path e)) = []) →
      getKey (InstalledManager.RemoveByScope L pid scope path).1 pid = none ∧
      InstalledManager.ExistsInstalled
        (InstalledManager.RemoveByScope L pid scope path).1 pid = false) := by
  unfold InstalledManager.RemoveByScope
  by_cases h0 : entriesOf L pid = []
  · rw [if_pos h0]
    refine ⟨h, ?_⟩
    rintro ⟨habs, -⟩
    exact absurd rfl habs
  · rw [if_neg h0]
    by_cases h1 : (entriesOf L pid).filter
        (fun e => !(shouldRemove scope path e)) = []
    · rw [if_pos h1]
      refine ⟨by rw [getKey_eraseKey_same]; exact fun hc => Option.noConfusion hc, fun _ => ?_⟩
      refine ⟨getKey_eraseKey_same _ _, ?_⟩
      simp [InstalledManager.ExistsInstalled, entriesOf, getKey_eraseKey_same]
    · rw [if_neg h1]
      refine ⟨?_, ?_⟩
      · rw [getKey_setKey_same]
        intro hcontra
        exact h1 (Option.some.inj hcontra)
      · rintro ⟨-, habs⟩
        exact absurd habs h1

/-- Claim C10 witness: removing the only (global) entry of a plugin deletes
its key; Exists is false afterwards. -/
theorem c10_removeByScope_no_empty_entry_list_witness :
    getKey ((InstalledManager.RemoveByScope [("p@m", [{ scope := "global" }])]
      "p@m" "global" "").1) "p@m" ≠ some [] ∧
    getKey ((InstalledManager.RemoveByScope [("p@m", [{ scope := "global" }])]
      "p@m" "global" "").1) "p@m" = none := by
  have h := c10_removeByScope_no_empty_entry_list
    [("p@m", [{ scope := "global" }])] "p@m" "global" "" (by decide)
  exact ⟨h.1, (h.2 (by decide)).1⟩

theorem charListLe_total (a b : List Char) :
    charListLe a b = true ∨ charListLe b a = true := by
  induction a generalizing b with
  | nil => exact Or.inl rfl
  | cons x as ih =>
    cases b with
    | nil => exact Or.inr rfl
    | cons y bs =>
      by_cases hxy : x = y
      · subst hxy
        rcases ih bs with h | h
        · exact Or.inl (by simpa [charListLe] using h)
        · exact Or.inr (by simpa [charListLe] using h)
      · rcases lt_or_gt_of_ne hxy with hlt | hgt
        · exact Or.inl (by simp [charListLe, hxy, hlt])
        · exact Or.inr (by simp [charListLe, Ne.symm hxy, hgt])

theorem charListLe_trans {a b c : List Char} (h1 : charListLe a b = true)
    (h2 : charListLe b c = true) : charListLe a c = true := by
  induction a generalizing b c with
  | nil => rfl
  | cons x as ih =>
    cases b with
    | nil => simp [charListLe] at h1
    | cons y bs =>
      cases c with
      | nil => simp [charListLe] at h2
      | cons z cs =>
        by_cases hxy : x = y
        · subst hxy
          rw [charListLe, if_pos rfl] at h1
          by_cases hyz : x = z
          · subst hyz
            rw [charListLe, if_pos rfl] at h2 ⊢
            exact ih h1 h2
          · rw [charListLe, if_neg hyz] at h2 ⊢
            exact h2
        · rw [charListLe, if_neg hxy] at h1
          have hlt1 : x < y := of_decide_eq_true h1
          by_cases hyz : y = z
          · subst hyz
            rw [charListLe, if_neg hxy]
            exact h1
          · rw [charListLe, if_neg hyz] at h2
            have hlt2 : y < z := of_decide_eq_true h2
            have hxz : x < z := lt_trans hlt1 hlt2
            rw [charListLe, if_neg (ne_of_lt hxz)]
            exact decide_eq_true hxz

theorem charListLe_antisymm {a b : List Char} (h1 : charListLe a b = true)
    (h2 : charListLe b a = true) : a = b := by
  induction a generalizing b with
  | nil =>
    cases b with
    | nil => rfl
    | cons y bs => simp [charListLe] at h2
  | cons x as ih =>
    cases b with
    | nil => simp [charListLe] at h1
    | cons y bs =>
      by_cases hxy : x = y
      · subst hxy
        rw [charListLe, if_pos rfl] at h1 h2
        rw [ih h1 h2]
      · rw [charListLe, if_neg hxy] at h1
        rw [charListLe, if_neg (Ne.symm hxy)] at h2
        exact absurd (lt_trans (of_decide_eq_true h1) (of_decide_eq_true h2))
          (lt_irrefl x)

instance : IsTotal String (fun a b => strLeb a b = true) :=
  ⟨fun a b => charListLe_total a.data b.data⟩

instance : IsTrans String (fun a b => strLeb a b = true) :=
  ⟨fun _ _ _ h1 h2 => charListLe_trans h1 h2⟩

instance : IsAntisymm String (fun a b => strLeb a b = true) :=
  ⟨fun a b h1 h2 => by
    cases a with
    | mk da =>
      cases b with
      | mk db => exact congrArg String.mk (charListLe_antisymm h1 h2)⟩

theorem mem_sortStrings {l : List String} {a : String} :
    a ∈ sortStrings l ↔ a ∈ l :=
  (List.perm_insertionSort (fun a b => strLeb a b = true) l).mem_iff

theorem sorted_sortStrings (l : List String) :
    List.Pairwise (fun a b => strLeb a b = true) (sortStrings l) :=
  List.sorted_insertionSort (fun a b => strLeb a b = true) l

theorem sortStrings_eq_of_perm {l l' : List String} (h : l.Perm l') :
    sortStrings l = sortStrings l' := by
  apply @List.eq_of_perm_of_sorted String (fun a b => strLeb a b = true) _
  · exact ((List.perm_insertionSort _ l).trans h).trans
      (List.perm_insertionSort _ l').symm
  · exact sorted_sortStrings l
  · exact sorted_sortStrings l'

theorem nodup_keys_value_eq {β : Type} {l : List (String × β)}
    (h : (l.map Prod.fst).Nodup) {k : String} {v v' : β}
    (h1 : (k, v) ∈ l) (h2 : (k, v') ∈ l) : v = v' := by
  induction l with
  | nil => cases h1
  | cons x xs ih =>
    rw [List.map_cons, List.nodup_cons] at h
    obtain ⟨hx, hxs⟩ := h
    rcases List.mem_cons.mp h1 with e1 | m1
    · rcases List.mem_cons.mp h2 with e2 | m2
      · rw [← e1] at e2
        exact congrArg Prod.snd e2.symm
      · exfalso
        apply hx
        have hk : x.1 = k := congrArg Prod.fst e1.symm
        rw [hk]
        exact List.mem_map.mpr ⟨(k, v'), m2, rfl⟩
    · rcases List.mem_cons.mp h2 with e2 | m2
      · exfalso
        apply hx
        have hk : x.1 = k := congrArg Prod.fst e2.symm
        rw [hk]
        exact List.mem_map.mpr ⟨(k, v), m1, rfl⟩
      · exact ih hxs m1 m2

/-- Claim C7: for every server configuration being encoded (with unique env
keys, as a Go map guarantees): an env binding whose value matches the
reference pattern is listed under its key name in the forwarded `env_vars`
list and never among the literal sub-table keys; a binding whose value does
not match appears in the literal table and never in the forwarded list; and
whenever the key differs from the referenced variable name the mismatch is
returned (the forwarded list keeps the key, never the variable name, so
nothing is silently renamed). Both emitted key lists are sorted. -/
theorem c7_env_binding_split (cfg : MCPServerConfig) (k v : String)
    (hmem : (k, v) ∈ cfg.env) (hnodup : (cfg.env.map Prod.fst).Nodup) :
    (∀ nm, envRefName v.data = some nm →
      k ∈ envVarsOf cfg ∧ k ∉ literalKeysOf cfg ∧
      (k ≠ String.mk nm →
        (⟨k, String.mk nm⟩ : EnvVarMismatch) ∈ mismatchesOf cfg)) ∧
    (envRefName v.data = none →
      (k, v) ∈ literalEnvOf cfg ∧ k ∉ envVarsOf cfg) ∧
    List.Pairwise (fun a b => strLeb a b = true) (envVarsOf cfg) ∧
    List.Pairwise (fun a b => strLeb a b = true) (literalKeysOf cfg) := by
  refine ⟨?_, ?_, sorted_sortStrings _, sorted_sortStrings _⟩
  · intro nm href
    refine ⟨?_, ?_, ?_⟩
    · unfold envVarsOf
      rw [mem_sortStrings]
      exact List.mem_map.mpr
        ⟨(k, v), List.mem_filter.mpr ⟨hmem, by simp [href]⟩, rfl⟩
    · unfold literalKeysOf
      rw [mem_sortStrings]
      intro hk
      rcases List.mem_map.mp hk with ⟨⟨k2, v2⟩, hm2, hk2⟩
      rcases List.mem_filter.mp hm2 with ⟨hm2e, hnone2⟩
      cases hk2
      have : v = v2 := nodup_keys_value_eq hnodup hmem hm2e
      rw [← this] at hnone2
      simp [href] at hnone2
    · intro hne
      unfold mismatchesOf
      refine List.mem_filterMap.mpr ⟨(k, v), hmem, ?_⟩
      simp only [href, hne, ne_eq, not_false_iff, if_pos]
  · intro hnone
    refine ⟨List.mem_filter.mpr ⟨hmem, by simp [hnone]⟩, ?_⟩
    unfold envVarsOf
    rw [mem_sortStrings]
    intro hk
    rcases List.mem_map.mp hk with ⟨⟨k2, v2⟩, hm2, hk2⟩
    rcases List.mem_filter.mp hm2 with ⟨hm2e, hsome2⟩
    cases hk2
    have : v = v2 := nodup_keys_value_eq hnodup hmem hm2e
    rw [← this] at hsome2
    simp [hnone] at hsome2

/-- Claim C7 witness: `TOKEN = "$FMT_TOKEN"` (a reference whose key differs
from the variable name) next to a literal binding. -/
theorem c7_env_binding_split_witness :
    ("TOKEN", "$FMT_TOKEN") ∈
      ({ env := [("TOKEN", "$FMT_TOKEN"), ("K", "lit")] }
        : MCPServerConfig).env ∧
    "TOKEN" ∈ envVarsOf { env := [("TOKEN", "$FMT_TOKEN"), ("K", "lit")] } ∧
    (⟨"TOKEN", "FMT_TOKEN"⟩ : EnvVarMismatch) ∈
      mismatchesOf { env := [("TOKEN", "$FMT_TOKEN"), ("K", "lit")] } := by
  have h := c7_env_binding_split
    { env := [("TOKEN", "$FMT_TOKEN"), ("K", "lit")] }
    "TOKEN" "$FMT_TOKEN" (by decide) (by decide)
  have href : envRefName ("$FMT_TOKEN" : String).data =
      some ("FMT_TOKEN" : String).data := by decide
  have h1 := h.1 _ href
  exact ⟨by decide, h1.1, h1.2.2 (by decide)⟩

/-- Go `GenerateRandomSuffix(length)` (`internal/plugin/util.go`): hex-encode
`(length+1)/2` random bytes and keep the first `length` characters. The
random source (`crypto/rand`) is abstracted as the byte-list argument; the
callers' security property (cryptographic strength) lives in that oracle. -/
def GenerateRandomSuffix (length : Nat) (bytes : List Nat) : List Char :=
  ((bytes.map (fun b => [hexDigitChar (b / 16), hexDigitChar (b % 16)])).flatten).take
    length

/-- Go `ResolveUniqueSkillPath(skillsDir, skillName)`: the destination is
`skillsDir/skillName` unless that path already exists, in which case the
8-character random suffix is appended to the directory name. The filesystem
existence check is abstracted as membership in `existing`. -/
def ResolveUniqueSkillPath (existing : List String)
    (skillsDir skillName suffix : String) : String × String :=
  let basePath := skillsDir ++ "/" ++ skillName
  if basePath ∉ existing then (basePath, skillName)
  else
    let uniqueName := skillName ++ "-" ++ suffix
    (skillsDir ++ "/" ++ uniqueName, uniqueName)

theorem flatten_map_pair_length (bytes : List Nat) :
    ((bytes.map (fun b => [hexDigitChar (b / 16), hexDigitChar (b % 16)])).flatten).length =
      2 * bytes.length := by
  induction bytes with
  | nil => rfl
  | cons b bs ih =>
    simp only [List.map_cons, List.flatten_cons, List.length_append, ih,
      List.length_cons, List.length_nil]
    ring

/-- Claim C9: when the destination path for a skill name already exists,
`ResolveUniqueSkillPath` does not fail but returns a distinct fresh path whose
final component is the skill name, a hyphen, and the 8-character random
suffix; in particular installing a second skill of the same name into the
same scope yields a destination different from the first one's, so neither
overwrites the other. -/
theorem c9_resolve_unique_skill_path (existing : List String)
    (skillsDir skillName : String) (bytes : List Nat)
    (hlen : bytes.length = 4)
    (hcol : (skillsDir ++ "/" ++ skillName) ∈ existing) :
    (String.mk (GenerateRandomSuffix 8 bytes)).length = 8 ∧
    (ResolveUniqueSkillPath existing skillsDir skillName
        (String.mk (GenerateRandomSuffix 8 bytes))).2 =
      skillName ++ "-" ++ String.mk (GenerateRandomSuffix 8 bytes) ∧
    (ResolveUniqueSkillPath existing skillsDir skillName
        (String.mk (GenerateRandomSuffix 8 bytes))).1 =
      skillsDir ++ "/" ++ (skillName ++ "-" ++ String.mk (GenerateRandomSuffix 8 bytes)) ∧
    (ResolveUniqueSkillPath existing skillsDir skillName
        (String.mk (GenerateRandomSuffix 8 bytes))).1 ≠
      skillsDir ++ "/" ++ skillName := by
  have hsuf : (String.mk (GenerateRandomSuffix 8 bytes)).length = 8 := by
    show (GenerateRandomSuffix 8 bytes).length = 8
    unfold GenerateRandomSuffix
    rw [List.length_take, flatten_map_pair_length, hlen]
    rfl
  have hres : ResolveUniqueSkillPath existing skillsDir skillName
      (String.mk (GenerateRandomSuffix 8 bytes)) =
      (skillsDir ++ "/" ++ (skillName ++ "-" ++ String.mk (GenerateRandomSuffix 8 bytes)),
       skillName ++ "-" ++ String.mk (GenerateRandomSuffix 8 bytes)) := by
    unfold ResolveUniqueSkillPath
    simp only [hcol, not_true_eq_false, if_false]
  refine ⟨hsuf, by rw [hres], by rw [hres], ?_⟩
  rw [hres]
  intro hcontra
  have := congrArg String.length hcontra
  simp only [String.length_append, hsuf] at this
  omega

/-- Claim C9 witness: two plugins both installing a skill named `reviewer`
into `dest`; the second resolution lands on a suffixed directory distinct
from the first. -/
theorem c9_resolve_unique_skill_path_witness :
    (["dest/reviewer"] : List String) = ["dest/reviewer"] ∧
    (ResolveUniqueSkillPath ["dest/reviewer"] "dest" "reviewer"
        (String.mk (GenerateRandomSuffix 8 [0xde, 0xad, 0xbe, 0xef]))).1 ≠
      "dest" ++ "/" ++ "reviewer" := by
  have h := c9_resolve_unique_skill_path ["dest/reviewer"] "dest" "reviewer"
    [0xde, 0xad, 0xbe, 0xef] (by decide) (by decide)
  exact ⟨rfl, h.2.2.2⟩

/-- Split on newline characters; the `(?m)^` anchors of the section-header
patterns match exactly at the starts of these segments. -/
def splitLines : List Char → List (List Char)
  | [] => [[]]
  | c :: cs =>
    if c = '\n' then [] :: splitLines cs
    else
      match splitLines cs with
      | l :: ls => (c :: l) :: ls
      | [] => [[c]]

/-- Characters allowed to start an unquoted section name, `[a-zA-Z_]`. -/
def isUnqStartChar (c : Char) : Bool :=
  c.isAlpha || c = '_'

/-- Characters allowed inside an unquoted section name, `[a-zA-Z0-9_-]`. -/
def isUnqChar (c : Char) : Bool :=
  c.isAlpha || c.isDigit || c = '_' || c = '-'

/-- Per-line match of `(?m)^\[mcp_servers\.([a-zA-Z_][a-zA-Z0-9_-]*)\]` in
`GetExistingMCPServerNames`: the header literal, a maximal run of name
characters, then the closing bracket (the pattern is not anchored at the
line end). -/
def unquotedName (line : List Char) : Option (List Char) :=
  if (strChars "[mcp_servers.").isPrefixOf line then
    match line.drop 13 with
    | c :: cs =>
      if isUnqStartChar c then
        match cs.dropWhile isUnqChar with
        | ']' :: _ => some (c :: cs.takeWhile isUnqChar)
        | _ => none
      else none
    | [] => none
  else none

/-- Per-line match of `(?m)^\[mcp_servers\."([^"]+)"\]`: a non-empty run of
non-quote characters between the quotes, then the closing bracket. -/
def quotedName (line : List Char) : Option (List Char) :=
  if (strChars "[mcp_servers.\"").isPrefixOf line then
    match line.drop 14 with
    | c :: cs =>
      if c ≠ '"' then
        match cs.dropWhile (fun d => d ≠ '"') with
        | '"' :: ']' :: _ => some (c :: cs.takeWhile (fun d => d ≠ '"'))
        | _ => none
      else none
    | [] => none
  else none

/-- Go `GetExistingMCPServerNames(configPath)`: every `[mcp_servers.X]`
section header at a line start, unquoted matches first, then quoted matches
(the source runs the two `FindAllStringSubmatch` passes separately). -/
def GetExistingMCPServerNames (content : List Char) : List String :=
  ((splitLines content).filterMap unquotedName).map String.mk ++
    ((splitLines content).filterMap quotedName).map String.mk

/-- The literal prefix of `CheckServerNameConflicts`'s marker pattern,
`MarkerStartPrefix + " plugin="` (the plugin id itself is matched by `.*`,
so any plugin's marker qualifies). -/
def startPluginLit : List Char := markerStartLit ++ strChars " plugin="

/-- A character that survives the name interpolation of
`CheckServerNameConflicts` unchanged: the source splices `%q` of the
proposed name *unescaped* into a `regexp.MustCompile` pattern, so the model
below is exact only for characters that `%q` leaves as themselves (printable
ASCII other than quote and backslash) and that the regex engine does not
treat as metacharacters. -/
def regexNeutralChar (c : Char) : Bool :=
  decide (0x20 ≤ c.toNat ∧ c.toNat ≤ 0x7e) &&
    decide (c ∉ ['\\', '"', '.', '+', '*', '?', '(', ')', '|', '[', ']',
      '\x7b', '\x7d', '^', '$'])

/-- A proposed server name whose `%q` text is spliced into the marker
pattern as a pure literal: every character is regex-neutral. For other
names the engine reinterprets the spliced text as regex syntax (a `.`
matches any character, `%q` escape sequences are re-read, and an invalid
fragment makes `MustCompile` panic); such names are outside this model. -/
def regexNeutralName (name : String) : Bool :=
  name.data.all regexNeutralChar

/-- The section-header text `[mcp_servers."name"]` (`%q` of the proposed
name) that must appear at a line start after the marker. The source embeds
this text in a compiled regex; for a regex-neutral name the embedded
fragment denotes exactly this literal (`goQuote_eq_of_neutral` shows `%q`
adds no escapes there), which is the only case the C3 theorem covers. -/
def sectionLit (name : String) : List Char :=
  strChars "[mcp_servers." ++ goQuote name ++ [']']

/-- Does `pat` occur as a prefix of some line-start suffix of the text?
(`atStart` is true when the current position is a line start.) Models the
`(?:.*\n)*?LIT` tail of the marker pattern. -/
def hasLineWith (pat : List Char) : Bool → List Char → Bool
  | atStart, [] => atStart && pat.isPrefixOf []
  | atStart, c :: cs => (atStart && pat.isPrefixOf (c :: cs)) ||
      hasLineWith pat (c = '\n') cs

/-- Scan for any occurrence of the marker-pattern of
`CheckServerNameConflicts`: some position where `startPluginLit` matches,
whose line is newline-terminated, followed (at a line start) by the quoted
section header of `name`. Equals `markerPattern.MatchString(content)` when
`name` is regex-neutral (`regexNeutralName`); for other names the source
compiles the spliced `%q` text as regex syntax, which this function does
not model. -/
def suppressedScan (name : String) : List Char → Bool
  | [] => false
  | c :: cs =>
    (if startPluginLit.isPrefixOf (c :: cs) then
      match dropThroughNL ((c :: cs).drop startPluginLit.length) with
      | some r => hasLineWith (sectionLit name) true r
      | none => false
     else false) ||
      suppressedScan name cs

/-- Go `CheckServerNameConflicts(configPath, newServers)`: for every proposed
name (map iteration, modelled as a list) and every equal existing name, the
name is a conflict unless some codex-market start marker precedes a line
holding its quoted section header. Faithful to the source for regex-neutral
proposed names (see `regexNeutralName` and `suppressedScan`). -/
def CheckServerNameConflicts (content : List Char) (newNames : List String) :
    List String :=
  newNames.flatMap (fun name =>
    (GetExistingMCPServerNames content).filterMap (fun existingName =>
      if name = existingName then
        if suppressedScan name content then none else some name
      else none))

/-- Claim C3 counterexample: a config whose only `mcp_servers` section for
`a` sits in the managed block of a *different* plugin (`other`), while the
plugin being installed (`mine`) has no block at all (its start literal does
not even occur). The claim demands that this foreign-managed declaration
block the name, yet the code reports no conflict, because the marker pattern
matches any plugin's marker (`plugin=.*`). -/
theorem c3_counterexample :
    "a" ∈ GetExistingMCPServerNames
      (strChars "# [codex-market:start] plugin=other marketplace=m\n[mcp_servers.\"a\"]\n# [codex-market:end] plugin=other\n") ∧
    hasSub
      (strChars "# [codex-market:start] plugin=other marketplace=m\n[mcp_servers.\"a\"]\n# [codex-market:end] plugin=other\n")
      (startLit "mine") = false ∧
    CheckServerNameConflicts
      (strChars "# [codex-market:start] plugin=other marketplace=m\n[mcp_servers.\"a\"]\n# [codex-market:end] plugin=other\n")
      ["a"] = [] := by
  refine ⟨by decide, by decide, by decide⟩

theorem escapeChar_eq_of_neutral {c : Char} (h : regexNeutralChar c = true) :
    escapeChar c = [c] := by
  unfold regexNeutralChar at h
  rw [Bool.and_eq_true, decide_eq_true_eq, decide_eq_true_eq] at h
  obtain ⟨h1, h2⟩ := h
  have hq : c ≠ '"' := fun he => h2 (by rw [he]; decide)
  have hb : c ≠ '\\' := fun he => h2 (by rw [he]; decide)
  have h7 : c ≠ Char.ofNat 7 := fun he => by
    rw [he] at h1; exact absurd h1.1 (by decide)
  have h8 : c ≠ Char.ofNat 8 := fun he => by
    rw [he] at h1; exact absurd h1.1 (by decide)
  have h12 : c ≠ Char.ofNat 12 := fun he => by
    rw [he] at h1; exact absurd h1.1 (by decide)
  have hn : c ≠ '\n' := fun he => by
    rw [he] at h1; exact absurd h1.1 (by decide)
  have h13 : c ≠ Char.ofNat 13 := fun he => by
    rw [he] at h1; exact absurd h1.1 (by decide)
  have h9 : c ≠ Char.ofNat 9 := fun he => by
    rw [he] at h1; exact absurd h1.1 (by decide)
  have h11 : c ≠ Char.ofNat 11 := fun he => by
    rw [he] at h1; exact absurd h1.1 (by decide)
  unfold escapeChar
  rw [if_neg hq, if_neg hb, if_neg h7, if_neg h8, if_neg h12, if_neg hn,
    if_neg h13, if_neg h9, if_neg h11, if_pos h1]

theorem flatten_map_escapeChar {l : List Char}
    (hl : l.all regexNeutralChar = true) :
    (l.map escapeChar).flatten = l := by
  induction l with
  | nil => rfl
  | cons c cs ih =>
    rw [List.all_cons, Bool.and_eq_true] at hl
    rw [List.map_cons, List.flatten_cons, escapeChar_eq_of_neutral hl.1,
      ih hl.2]
    rfl

theorem goQuote_eq_of_neutral {name : String}
    (h : regexNeutralName name = true) :
    goQuote name = '"' :: name.data ++ ['"'] := by
  unfold goQuote
  rw [flatten_map_escapeChar h]

/-- Claim C3 amended: for proposed names whose `%q` text is spliced into the
marker pattern as a pure literal (printable ASCII without quote, backslash
or regex metacharacters — `regexNeutralName`), a name is reported as a
conflict iff it appears as an `mcp_servers` section header in the file and
no codex-market start marker of *any* plugin occurs with the name's quoted
section header at a line start after the marker's line. Management by any
plugin (not only the one being installed) suppresses the conflict, and end
markers play no role, so a header merely appearing below some managed block
is also treated as managed. (For other names the source reinterprets the
spliced text as regex syntax or panics in `MustCompile`.) -/
theorem c3_conflict_characterization (content : List Char)
    (newNames : List String) (name : String)
    (_hneutral : ∀ nm ∈ newNames, regexNeutralName nm = true) :
    name ∈ CheckServerNameConflicts content newNames ↔
      name ∈ newNames ∧ name ∈ GetExistingMCPServerNames content ∧
        suppressedScan name content = false := by
  unfold CheckServerNameConflicts
  constructor
  · intro h
    rcases List.mem_flatMap.mp h with ⟨nm, hnm, hmem⟩
    rcases List.mem_filterMap.mp hmem with ⟨ex, hex, heq⟩
    by_cases h1 : nm = ex
    · rw [if_pos h1] at heq
      by_cases h2 : suppressedScan nm content = true
      · rw [if_pos h2] at heq
        cases heq
      · rw [if_neg h2] at heq
        have hname : nm = name := Option.some.inj heq
        subst hname
        subst h1
        exact ⟨hnm, hex, Bool.not_eq_true _ ▸ eq_false_of_ne_true h2⟩
    · rw [if_neg h1] at heq
      cases heq
  · rintro ⟨h1, h2, h3⟩
    refine List.mem_flatMap.mpr ⟨name, h1, ?_⟩
    refine List.mem_filterMap.mpr ⟨name, h2, ?_⟩
    rw [if_pos rfl, h3]
    rfl

/-- Claim C3 amended, witness: an unmanaged `[mcp_servers."a"]` header (no
marker anywhere) conflicts with the regex-neutral proposed name `a`. -/
theorem c3_conflict_characterization_witness :
    "a" ∈ CheckServerNameConflicts (strChars "[mcp_servers.\"a\"]\n") ["a"] :=
  (c3_conflict_characterization (strChars "[mcp_servers.\"a\"]\n") ["a"] "a"
    (by decide)).mpr ⟨by decide, by decide, by decide⟩

/-- Go `filepath.Ext`: the suffix starting at the final dot, empty when the
name has no dot. -/
def fileExt (f : String) : String :=
  if '.' ∈ f.data then
    String.mk ('.' :: (f.data.reverse.takeWhile (fun c => c ≠ '.')).reverse)
  else ""

/-- Go `strings.TrimSuffix`. -/
def trimSuffixStr (f suffix : String) : String :=
  if suffix.data.isSuffixOf f.data then
    String.mk (f.data.take (f.data.length - suffix.data.length))
  else f

/-- Go `ResolveUniquePromptPath(promptsDir, fileName)`
(`internal/plugin/util.go`): on collision insert the random suffix before
the file extension. -/
def ResolveUniquePromptPath (existing : List String)
    (promptsDir fileName suffix : String) : String × String :=
  let basePath := promptsDir ++ "/" ++ fileName
  if basePath ∉ existing then (basePath, fileName)
  else
    let ext := fileExt fileName
    let nameWithoutExt := trimSuffixStr fileName ext
    let uniqueName := nameWithoutExt ++ "-" ++ suffix ++ ext
    (promptsDir ++ "/" ++ uniqueName, uniqueName)

/-- The plugin-source artifacts and metadata `runPluginInstall` has resolved
before its already-installed check: manifest data, resolved version, the
skill directories containing `SKILL.md`, the markdown command files, and the
parsed `.mcp.json` servers. -/
structure InstallArgs where
  pluginName : String
  marketplaceName : String
  version : String := ""
  sourceURL : String := ""
  skills : List String := []
  commands : List String := []
  mcpServers : List (String × MCPServerConfig) := []
deriving DecidableEq

/-- The state `runPluginInstall` / `runPluginUninstall` mutate: the install
ledger document, the shared `~/.codex/config.toml` text, and the sets of
skill directories, prompt files and cache directories present on disk. -/
structure World where
  ledger : Ledger := []
  configToml : List Char := []
  skillDirs : List String := []
  promptFiles : List String := []
  cacheDirs : List String := []
deriving DecidableEq

/-- The error outcomes of the orchestration commands that the claims
mention. -/
inductive InstallError where
  | alreadyInstalled
  | invalidScope
  | notInstalled
  | uninstallFailed (e : InstallError)
  | installFailed (e : InstallError)
deriving DecidableEq

/-- Modelled `os.UserHomeDir`. -/
def homePath : String := "~"

/-- `config.CodexSkillsDir` / `config.ProjectCodexSkillsDir`. -/
def skillsDirFor (scope cwd : String) : String :=
  if scope = "project" then cwd ++ "/.codex/skills"
  else homePath ++ "/.codex/skills"

/-- `config.CodexPromptsDir` / `config.ProjectCodexPromptsDir`. -/
def promptsDirFor (scope cwd : String) : String :=
  if scope = "project" then cwd ++ "/.codex/prompts"
  else homePath ++ "/.codex/prompts"

/-- The skills loop of `runPluginInstall`: resolve each skill directory
against the destinations present so far (`os.Stat` in
`ResolveUniqueSkillPath`), create it, and record (actualSkillName,
skillDestPath). `sfx i` abstracts the i-th random suffix drawn. -/
def installSkillsLoop (skillsDir : String) (sfx : Nat → String) :
    List String → Nat → List String → List String × List (String × String)
  | [], _, dirs => (dirs, [])
  | n :: ns, i, dirs =>
    let r := ResolveUniqueSkillPath dirs skillsDir n (sfx i)
    let rest := installSkillsLoop skillsDir sfx ns (i + 1) (dirs ++ [r.1])
    (rest.1, (r.2, r.1) :: rest.2)

/-- The commands loop of `runPluginInstall`: resolve each markdown file,
copy it, and record (commandName without `.md`, commandDestPath). -/
def installCommandsLoop (promptsDir : String) (sfx : Nat → String) :
    List String → Nat → List String → List String × List (String × String)
  | [], _, files => (files, [])
  | f :: fs, i, files =>
    let r := ResolveUniquePromptPath files promptsDir f (sfx i)
    let rest := installCommandsLoop promptsDir sfx fs (i + 1) (files ++ [r.1])
    (rest.1, (trimSuffixStr r.2 ".md", r.1) :: rest.2)

/-- Go `runPluginInstall` (file `cmd/plugin.go`), for an already-resolved
source: after source resolution (which touches none of the modelled state),
the already-installed check runs; only past it are skills and commands
copied, the MCP block written, the cache populated and the ledger entry
added. `skillSfx`/`cmdSfx` abstract the random suffix draws. -/
def runPluginInstallModel (w : World) (a : InstallArgs) (scope cwd : String)
    (skillSfx cmdSfx : Nat → String) : World × Option InstallError :=
  let pluginID := a.pluginName ++ "@" ++ a.marketplaceName
  let projectPath := if scope = "project" then cwd else ""
  let existing := InstalledManager.GetByScope w.ledger pluginID scope projectPath
  if existing ≠ [] then (w, some InstallError.alreadyInstalled)
  else
    let skillsRes :=
      installSkillsLoop (skillsDirFor scope cwd) skillSfx a.skills 0 w.skillDirs
    let commandsRes :=
      installCommandsLoop (promptsDirFor scope cwd) cmdSfx a.commands 0 w.promptFiles
    let mcpNames := a.mcpServers.map Prod.fst
    let conflicts :=
      if a.mcpServers ≠ [] then CheckServerNameConflicts w.configToml mcpNames
      else []
    let remainingServers := a.mcpServers.filter (fun b => b.1 ∉ conflicts)
    let writeMCP := a.mcpServers ≠ [] ∧ remainingServers ≠ []
    let configToml' :=
      if writeMCP then
        AddMCPServers w.configToml a.pluginName a.marketplaceName remainingServers
      else w.configToml
    let mcpEntries :=
      if writeMCP then remainingServers.map (fun b => (b.1, pluginID)) else []
    let cachePath := homePath ++ "/.config/codex-market/cache/" ++
      a.marketplaceName ++ "/" ++ a.pluginName ++ "/" ++ a.version
    let entry : InstalledPluginEntry :=
      { scope := scope
        projectPath := projectPath
        version := a.version
        sourceMarketplace := a.marketplaceName
        sourceURL := a.sourceURL
        sourceCachePath := cachePath
        skills := skillsRes.2
        commands := commandsRes.2
        mcpServers := mcpEntries }
    ({ ledger := InstalledManager.Add w.ledger pluginID entry
       configToml := configToml'
       skillDirs := skillsRes.1
       promptFiles := commandsRes.1
       cacheDirs := w.cacheDirs ++ [cachePath] }, none)

/-- Go `strings.Index(pluginID, "@") > 0` name extraction of
`runPluginUninstall`'s MCP step. -/
def pluginNameOf (pluginID : String) : String :=
  if '@' ∈ pluginID.data ∧ pluginID.data.head? ≠ some '@' then
    String.mk (pluginID.data.takeWhile (fun c => c ≠ '@'))
  else pluginID

/-- The artifact-removal body of `runPluginUninstall`'s loop over removed
entries: remove each recorded skill directory, command file and the cache
copy, and remove the plugin's marked block when the entry recorded MCP
servers. -/
def uninstallArtifacts (pluginID : String) (w : World)
    (e : InstalledPluginEntry) : World :=
  { w with
    skillDirs := w.skillDirs.filter (fun d => d ∉ e.skills.map Prod.snd)
    promptFiles := w.promptFiles.filter (fun f => f ∉ e.commands.map Prod.snd)
    configToml :=
      if e.mcpServers ≠ [] then
        RemoveMarkedBlock w.configToml (pluginNameOf pluginID)
      else w.configToml
    cacheDirs :=
      if e.sourceCachePath ≠ "" then
        w.cacheDirs.filter (fun d => d ≠ e.sourceCachePath)
      else w.cacheDirs }

/-- Go `runPluginUninstall` (file `cmd/plugin.go`): validate the scope, look
up the entries for the caller's current directory, fail with NotInstalled
when none match, otherwise remove them from the ledger and then best-effort
remove their artifacts. -/
def runPluginUninstallModel (w : World) (pluginID scope cwd : String) :
    World × Option InstallError :=
  if scope ≠ "global" ∧ scope ≠ "project" ∧ scope ≠ "all" then
    (w, some InstallError.invalidScope)
  else
    let entries := InstalledManager.GetByScope w.ledger pluginID scope cwd
    if entries = [] then (w, some InstallError.notInstalled)
    else
      let removeRes := InstalledManager.RemoveByScope w.ledger pluginID scope cwd
      let w1 : World := { w with ledger := removeRes.1 }
      (removeRes.2.foldl (uninstallArtifacts pluginID) w1, none)

/-- Go `reinstallPlugin(pluginID, entry)` (file `cmd/plugin.go`), the
internal cycle of `plugin update`: uninstall with the entry's scope from the
*current* directory, then — only for project scope and a recorded project
path — change into that directory, and install with the same scope. -/
def reinstallPluginModel (w : World) (pluginID : String)
    (entry : InstalledPluginEntry) (a : InstallArgs) (cwd : String)
    (skillSfx cmdSfx : Nat → String) : World × Option InstallError :=
  let ures := runPluginUninstallModel w pluginID entry.scope cwd
  match ures.2 with
  | some e => (ures.1, some (InstallError.uninstallFailed e))
  | none =>
    let cwd2 :=
      if entry.scope = "project" ∧ entry.projectPath ≠ "" then entry.projectPath
      else cwd
    let ires := runPluginInstallModel ures.1 a entry.scope cwd2 skillSfx cmdSfx
    match ires.2 with
    | some e => (ires.1, some (InstallError.installFailed e))
    | none => (ires.1, none)

/-- Claim C6: when the ledger already holds an entry for the same
(pluginID, scope, projectPath), re-running install returns AlreadyInstalled
and the world — ledger, shared config file, and artifact sets — is returned
unchanged: the check precedes every artifact copy and block write in
`runPluginInstall`. -/
theorem c6_reinstall_already_installed (w : World) (a : InstallArgs)
    (scope cwd : String) (skillSfx cmdSfx : Nat → String)
    (h : InstalledManager.GetByScope w.ledger
      (a.pluginName ++ "@" ++ a.marketplaceName) scope
      (if scope = "project" then cwd else "") ≠ []) :
    runPluginInstallModel w a scope cwd skillSfx cmdSfx =
      (w, some InstallError.alreadyInstalled) := by
  simp only [runPluginInstallModel]
  rw [if_pos h]

/-- Claim C6 witness: re-installing a globally installed plugin. -/
theorem c6_reinstall_already_installed_witness :
    runPluginInstallModel
      { ledger := [("p@m", [{ scope := "global", version := "1" }])],
        configToml := strChars "x = 1\n" }
      { pluginName := "p", marketplaceName := "m", version := "1" }
      "global" "/cwd" (fun _ => "sfx") (fun _ => "sfx") =
      ({ ledger := [("p@m", [{ scope := "global", version := "1" }])],
         configToml := strChars "x = 1\n" },
       some InstallError.alreadyInstalled) :=
  c6_reinstall_already_installed
    { ledger := [("p@m", [{ scope := "global", version := "1" }])],
      configToml := strChars "x = 1\n" }
    { pluginName := "p", marketplaceName := "m", version := "1" }
    "global" "/cwd" (fun _ => "sfx") (fun _ => "sfx") (by decide)

/-- Claim C8: `reinstallPlugin` runs the uninstall *before* changing into the
recorded project directory, and `runPluginUninstall` matches project-scoped
entries against the caller's current directory. Invoked from an unrelated
working directory on a project-scoped entry, the uninstall therefore finds
no entry and the whole update fails with an uninstall error: nothing is
reinstalled and the stale entry survives, contradicting the claimed
preservation across the cycle. This theorem evaluates the model at that
failing input. -/
theorem c8_update_from_unrelated_directory_fails :
    reinstallPluginModel
      { ledger := [("p@m",
          [{ scope := "project", projectPath := "/proj", version := "1" }])] }
      "p@m"
      { scope := "project", projectPath := "/proj", version := "1" }
      { pluginName := "p", marketplaceName := "m", version := "2" }
      "/elsewhere" (fun _ => "sfx") (fun _ => "sfx") =
      ({ ledger := [("p@m",
          [{ scope := "project", projectPath := "/proj", version := "1" }])] },
       some (InstallError.uninstallFailed InstallError.notInstalled)) := by
  decide

theorem startLit_head (p : String) :
    startLit p = '#' :: (strChars " [codex-market:start]" ++
      strChars " plugin=" ++ p.data) := by
  simp [startLit, markerStartLit, strChars]

theorem endLit_head (p : String) :
    endLit p = '#' :: (strChars " [codex-market:end]" ++
      strChars " plugin=" ++ p.data) := by
  simp [endLit, markerEndLit, strChars]

theorem nl_not_mem_startLit (p : String) (hp : '\n' ∉ p.data) :
    '\n' ∉ startLit p := by
  intro h
  rcases List.mem_append.mp h with h1 | h1
  · rcases List.mem_append.mp h1 with h2 | h2
    · exact absurd h2 (by decide)
    · exact absurd h2 (by decide)
  · exact hp h1

theorem nl_not_mem_endLit (p : String) (hp : '\n' ∉ p.data) :
    '\n' ∉ endLit p := by
  intro h
  rcases List.mem_append.mp h with h1 | h1
  · rcases List.mem_append.mp h1 with h2 | h2
    · exact absurd h2 (by decide)
    · exact absurd h2 (by decide)
  · exact hp h1

theorem isPrefixOf_iff_pre {l₁ l₂ : List Char} :
    l₁.isPrefixOf l₂ = true ↔ l₁ <+: l₂ :=
  List.isPrefixOf_iff_prefix

theorem nil_pre {α : Type} (l : List α) : [] <+: l :=
  List.nil_prefix

theorem reverse_pre_iff {α : Type} {l₁ l₂ : List α} :
    l₁.reverse <+: l₂.reverse ↔ l₁ <:+ l₂ :=
  List.reverse_prefix

theorem not_prefix_extend {pat a : List Char} (c' : List Char)
    (hnl : '\n' ∉ pat) (h : ¬ pat <+: a) : ¬ pat <+: a ++ '\n' :: c' := by
  induction pat generalizing a with
  | nil => exact absurd (nil_pre a) h
  | cons x xs ih =>
    cases a with
    | nil =>
      intro hp
      rcases List.cons_prefix_cons.mp hp with ⟨hx, -⟩
      exact hnl (hx ▸ List.mem_cons_self x xs)
    | cons b a' =>
      intro hp
      rcases List.cons_prefix_cons.mp hp with ⟨hx, hxs⟩
      subst hx
      have hxs' : ¬ xs <+: a' := fun hc => h (List.cons_prefix_cons.mpr ⟨rfl, hc⟩)
      exact ih (fun hm => hnl (List.mem_cons_of_mem _ hm)) hxs' hxs

theorem hasSub_cons (c : Char) (cs pat : List Char) :
    hasSub (c :: cs) pat = (pat.isPrefixOf (c :: cs) || hasSub cs pat) := rfl

theorem hasSub_false_no_occurrence {s pat : List Char} (h : hasSub s pat = false) :
    ∀ i, ¬ pat <+: s.drop i := by
  induction s with
  | nil =>
    intro i hp
    rw [List.drop_nil] at hp
    rw [List.prefix_nil] at hp
    subst hp
    simp [hasSub, List.isPrefixOf] at h
  | cons c cs ih =>
    rw [hasSub_cons, Bool.or_eq_false_iff] at h
    intro i
    cases i with
    | zero =>
      intro hp
      rw [List.drop_zero] at hp
      have := isPrefixOf_iff_pre.mpr hp
      rw [h.1] at this
      cases this
    | succ j => exact ih h.2 j

theorem dropThroughNL_append (a b : List Char) (h : '\n' ∉ a) :
    dropThroughNL (a ++ '\n' :: b) = some b := by
  induction a with
  | nil => simp [dropThroughNL]
  | cons c cs ih =>
    have hc : c ≠ '\n' := fun hc => h (hc ▸ List.mem_cons_self c cs)
    simp only [List.cons_append, dropThroughNL, if_neg hc]
    exact ih (fun hm => h (List.mem_cons_of_mem _ hm))

theorem dropThroughNL_length {s t : List Char} (h : dropThroughNL s = some t) :
    t.length < s.length := by
  induction s generalizing t with
  | nil => cases h
  | cons c cs ih =>
    unfold dropThroughNL at h
    by_cases hc : c = '\n'
    · rw [if_pos hc] at h
      cases h
      simp
    · rw [if_neg hc] at h
      exact Nat.lt_trans (ih h) (by simp)

theorem tryStart_none {startL s : List Char}
    (h0 : ¬ startL <+: s) (h1 : ¬ startL <+: s.tail) :
    tryStart startL s = none := by
  have b0 : startL.isPrefixOf s = false := by
    cases hb : startL.isPrefixOf s with
    | false => rfl
    | true => exact absurd (isPrefixOf_iff_pre.mp hb) h0
  have b1 : startL.isPrefixOf s.tail = false := by
    cases hb : startL.isPrefixOf s.tail with
    | false => rfl
    | true => exact absurd (isPrefixOf_iff_pre.mp hb) h1
  unfold tryStart
  split
  · rename_i x
    rw [List.tail_cons] at b1
    rw [b1, b0]
    simp
  · rw [b0]
    simp

theorem tryStart_length {startL s t : List Char}
    (h : tryStart startL s = some t) : t.length ≤ s.length := by
  unfold tryStart at h
  split at h
  · split_ifs at h with h1 h2
    · cases h
      simp only [List.length_drop, List.length_cons]
      omega
    · cases h
      simp only [List.length_drop]
      omega
  · split_ifs at h with h1
    cases h
    simp only [List.length_drop]
    omega

theorem dropOptNL_length (s : List Char) : (dropOptNL s).length ≤ s.length := by
  unfold dropOptNL
  split <;> simp

theorem findEnd_length {endL : List Char} {b : Bool} {s r : List Char}
    (h : findEnd endL b s = some r) : r.length ≤ s.length := by
  induction s generalizing b with
  | nil =>
    unfold findEnd at h
    split_ifs at h
    cases h
    exact Nat.le_refl 0
  | cons c cs ih =>
    unfold findEnd at h
    split_ifs at h with h1
    · cases h
      calc (dropOptNL ((c :: cs).drop endL.length)).length
          ≤ ((c :: cs).drop endL.length).length := dropOptNL_length _
        _ ≤ (c :: cs).length := by simp [List.length_drop]
    · exact Nat.le_trans (ih h) (by simp)

theorem matchAt_length {startL endL s rest : List Char}
    (h : matchAt startL endL s = some rest) : rest.length < s.length := by
  unfold matchAt at h
  cases h1 : tryStart startL s with
  | none => rw [h1] at h; cases h
  | some t =>
    rw [h1] at h
    simp only [Option.bind_eq_bind, Option.some_bind] at h
    cases h2 : dropThroughNL t with
    | none => rw [h2] at h; cases h
    | some u =>
      rw [h2] at h
      simp only [Option.some_bind] at h
      calc rest.length ≤ u.length := findEnd_length h
        _ < t.length := dropThroughNL_length h2
        _ ≤ s.length := tryStart_length h1

theorem matchAt_none {startL endL s : List Char}
    (h0 : ¬ startL <+: s) (h1 : ¬ startL <+: s.tail) :
    matchAt startL endL s = none := by
  unfold matchAt
  rw [tryStart_none h0 h1]
  rfl

theorem isPrefixOf_false_of_not_pre {pat l : List Char} (h : ¬ pat <+: l) :
    pat.isPrefixOf l = false := by
  cases hb : pat.isPrefixOf l with
  | false => rfl
  | true => exact absurd (isPrefixOf_iff_pre.mp hb) h

theorem findEnd_midline {endL : List Char} (w r : List Char) (hnl : '\n' ∉ w) :
    findEnd endL false (w ++ '\n' :: r) = findEnd endL true r := by
  induction w with
  | nil => rfl
  | cons c w' ih =>
    have hc : c ≠ '\n' := fun hc => hnl (hc ▸ List.mem_cons_self c w')
    have step : findEnd endL false (c :: (w' ++ '\n' :: r)) =
        findEnd endL (decide (c = '\n')) (w' ++ '\n' :: r) := rfl
    rw [List.cons_append, step, decide_eq_false hc]
    exact ih (fun hm => hnl (List.mem_cons_of_mem _ hm))

theorem findEnd_at_end {endL : List Char} (v : List Char) (e : Char)
    (es : List Char) (heq : endL = e :: es) :
    findEnd endL true (endL ++ v) = some (dropOptNL v) := by
  subst heq
  show findEnd (e :: es) true (e :: (es ++ v)) = _
  unfold findEnd
  have hpre : (e :: es).isPrefixOf (e :: (es ++ v)) = true :=
    isPrefixOf_iff_pre.mpr
      (by rw [← List.cons_append]; exact List.prefix_append _ _)
  rw [hpre]
  simp only [Bool.and_self, if_pos]
  have hdrop : List.drop (e :: es).length (e :: (es ++ v)) = v := by
    rw [← List.cons_append]
    exact List.drop_left _ _
  rw [hdrop]

theorem findEnd_joinLines {endL : List Char} (ls : List (List Char))
    (v : List Char) (e : Char) (es : List Char) (heq : endL = e :: es)
    (hnlE : '\n' ∉ endL)
    (hgood : ∀ l ∈ ls, '\n' ∉ l ∧ ¬ endL <+: l) :
    findEnd endL true (joinLines ls ++ endL ++ v) = some (dropOptNL v) := by
  induction ls with
  | nil =>
    show findEnd endL true (joinLines [] ++ endL ++ v) = _
    have : joinLines [] = [] := rfl
    rw [this, List.nil_append]
    exact findEnd_at_end v e es heq
  | cons l ls' ih =>
    have hgl := hgood l (List.mem_cons_self _ _)
    have hrest : ∀ l' ∈ ls', '\n' ∉ l' ∧ ¬ endL <+: l' :=
      fun l' hl' => hgood l' (List.mem_cons_of_mem _ hl')
    have hjl : joinLines (l :: ls') ++ endL ++ v =
        l ++ '\n' :: (joinLines ls' ++ endL ++ v) := by
      show (l ++ ['\n']) ++ joinLines ls' ++ endL ++ v = _
      simp [List.append_assoc]
    rw [hjl]
    cases l with
    | nil =>
      have hnotpre : endL.isPrefixOf ('\n' :: (joinLines ls' ++ endL ++ v)) = false := by
        apply isPrefixOf_false_of_not_pre
        intro hp
        rw [heq] at hp
        rcases List.cons_prefix_cons.mp hp with ⟨he, -⟩
        exact hnlE (heq ▸ (he ▸ List.mem_cons_self e es))
      show findEnd endL true ('\n' :: (joinLines ls' ++ endL ++ v)) = _
      unfold findEnd
      rw [hnotpre]
      simp only [Bool.and_false, Bool.false_eq_true, if_false]
      exact ih hrest
    | cons x l' =>
      have hx : x ≠ '\n' := fun hx => hgl.1 (hx ▸ List.mem_cons_self x l')
      have hnotpre : endL.isPrefixOf
          (x :: (l' ++ '\n' :: (joinLines ls' ++ endL ++ v))) = false := by
        apply isPrefixOf_false_of_not_pre
        have hcl : ¬ endL <+: x :: l' := hgl.2
        have := not_prefix_extend (joinLines ls' ++ endL ++ v) hnlE hcl
        simpa using this
      rw [List.cons_append]
      show findEnd endL true (x :: (l' ++ '\n' :: (joinLines ls' ++ endL ++ v))) = _
      unfold findEnd
      rw [hnotpre]
      simp only [Bool.and_false, Bool.false_eq_true, if_false]
      rw [decide_eq_false hx]
      rw [findEnd_midline l' _ (fun hm => hgl.1 (List.mem_cons_of_mem _ hm))]
      exact ih hrest

theorem matchAt_block {startL endL : List Char} (u body v : List Char)
    (ls : List (List Char)) (hbody : body = joinLines ls)
    (hu : '\n' ∉ u) (e : Char) (es : List Char) (heq : endL = e :: es)
    (hnlE : '\n' ∉ endL)
    (hgood : ∀ l ∈ ls, '\n' ∉ l ∧ ¬ endL <+: l) :
    matchAt startL endL ('\n' :: (startL ++ u ++ '\n' :: (body ++ endL ++ v))) =
      some (dropOptNL v) := by
  subst hbody
  unfold matchAt
  have h1 : tryStart startL ('\n' :: (startL ++ u ++ '\n' :: (joinLines ls ++ endL ++ v))) =
      some (u ++ '\n' :: (joinLines ls ++ endL ++ v)) := by
    show (if startL.isPrefixOf (startL ++ u ++ '\n' :: (joinLines ls ++ endL ++ v)) then
        some (List.drop startL.length (startL ++ u ++ '\n' :: (joinLines ls ++ endL ++ v)))
      else _) = _
    have hpre : startL.isPrefixOf
        (startL ++ u ++ '\n' :: (joinLines ls ++ endL ++ v)) = true := by
      apply isPrefixOf_iff_pre.mpr
      rw [List.append_assoc]
      exact List.prefix_append _ _
    rw [hpre]
    simp only [if_pos]
    rw [List.append_assoc, List.drop_left]
  rw [h1]
  simp only [Option.bind_eq_bind, Option.some_bind]
  rw [dropThroughNL_append u _ hu]
  simp only [Option.some_bind]
  exact findEnd_joinLines ls v e es heq hnlE hgood

theorem matchAt_nil (startL endL : List Char) : matchAt startL endL [] = none := by
  cases startL with
  | nil => rfl
  | cons c cs => rfl

theorem removeFromFuel_succ (startL endL : List Char) (k : Nat) (s : List Char) :
    removeFromFuel startL endL (k + 1) s =
      match matchAt startL endL s with
      | some rest => removeFromFuel startL endL k rest
      | none =>
        match s with
        | [] => []
        | c :: cs => c :: removeFromFuel startL endL k cs := rfl

theorem removeFromFuel_nil (startL endL : List Char) (fuel : Nat) :
    removeFromFuel startL endL fuel [] = [] := by
  cases fuel with
  | zero => rfl
  | succ f =>
    unfold removeFromFuel
    rw [matchAt_nil]

theorem removeFromFuel_congr (startL endL : List Char) :
    ∀ (f1 : Nat) {f2 : Nat} (s : List Char), s.length ≤ f1 → s.length ≤ f2 →
      removeFromFuel startL endL f1 s = removeFromFuel startL endL f2 s := by
  intro f1
  induction f1 with
  | zero =>
    intro f2 s h1 h2
    have : s = [] := List.eq_nil_of_length_eq_zero (Nat.le_zero.mp h1)
    subst this
    rw [removeFromFuel_nil, removeFromFuel_nil]
  | succ g1 ih =>
    intro f2 s h1 h2
    cases s with
    | nil => rw [removeFromFuel_nil, removeFromFuel_nil]
    | cons c cs =>
      cases f2 with
      | zero => exact absurd h2 (by simp)
      | succ g2 =>
        unfold removeFromFuel
        cases hm : matchAt startL endL (c :: cs) with
        | some rest =>
          have hlen := matchAt_length hm
          simp only [List.length_cons] at hlen h1 h2
          show removeFromFuel startL endL g1 rest = removeFromFuel startL endL g2 rest
          exact ih rest (by omega) (by omega)
        | none =>
          simp only [List.length_cons] at h1 h2
          show c :: removeFromFuel startL endL g1 cs =
            c :: removeFromFuel startL endL g2 cs
          exact congrArg (c :: ·) (ih cs (by omega) (by omega))

/-- The fuel-free view of the scanner: `RemoveMarkedBlock` runs it with fuel
equal to the text length, which the next lemmas show is always enough. -/
def removeRun (startL endL : List Char) (s : List Char) : List Char :=
  removeFromFuel startL endL s.length s

theorem RemoveMarkedBlock_eq_removeRun (content : List Char) (p : String) :
    RemoveMarkedBlock content p =
      removeRun (startLit p) (endLit p) content := rfl

theorem removeRun_nil (startL endL : List Char) :
    removeRun startL endL [] = [] := rfl

theorem removeRun_match {startL endL s rest : List Char}
    (h : matchAt startL endL s = some rest) :
    removeRun startL endL s = removeRun startL endL rest := by
  have hlen := matchAt_length h
  unfold removeRun
  cases hs : s.length with
  | zero =>
    rw [hs] at hlen
    exact absurd hlen (by omega)
  | succ k =>
    rw [hs] at hlen
    have h1 : removeFromFuel startL endL (k + 1) s =
        removeFromFuel startL endL k rest := by
      rw [removeFromFuel_succ, h]
    rw [h1]
    exact removeFromFuel_congr _ _ k rest (by omega) (Nat.le_refl _)

theorem removeRun_cons {startL endL : List Char} {c : Char} {cs : List Char}
    (h : matchAt startL endL (c :: cs) = none) :
    removeRun startL endL (c :: cs) = c :: removeRun startL endL cs := by
  unfold removeRun
  show removeFromFuel startL endL (cs.length + 1) (c :: cs) =
    c :: removeFromFuel startL endL cs.length cs
  rw [removeFromFuel_succ, h]

theorem removeRun_no_occurrence {startL : List Char} (endL : List Char)
    {s : List Char} (h : hasSub s startL = false) :
    removeRun startL endL s = s := by
  induction s with
  | nil => rfl
  | cons c cs ih =>
    rw [hasSub_cons, Bool.or_eq_false_iff] at h
    have h0 : ¬ startL <+: (c :: cs) := fun hp => by
      have := isPrefixOf_iff_pre.mpr hp
      rw [h.1] at this
      cases this
    have h1 : ¬ startL <+: cs := by
      intro hp
      have hss := hasSub_false_no_occurrence h.2 0
      rw [List.drop_zero] at hss
      exact hss hp
    have hm : matchAt startL endL (c :: cs) = none :=
      matchAt_none h0 (by rw [List.tail_cons]; exact h1)
    rw [removeRun_cons hm]
    rw [ih h.2]

theorem removeRun_append {startL endL : List Char} (A B : List Char)
    (hA : ∀ i, ¬ startL <+: (A.drop i ++ B)) :
    removeRun startL endL (A ++ B) = A ++ removeRun startL endL B := by
  induction A with
  | nil => rw [List.nil_append, List.nil_append]
  | cons c A' ih =>
    have h0 : ¬ startL <+: (c :: A' ++ B) := by
      have := hA 0
      rwa [List.drop_zero] at this
    have h1 : ¬ startL <+: (A' ++ B) := by
      have := hA 1
      simpa using this
    have hm : matchAt startL endL (c :: (A' ++ B)) = none :=
      matchAt_none (by simpa using h0) (by rw [List.tail_cons]; exact h1)
    rw [List.cons_append, removeRun_cons hm, ih (fun i => by simpa using hA (i + 1)),
      List.cons_append]

theorem hexDigitChar_ne_nl (n : Nat) : hexDigitChar n ≠ '\n' := by
  unfold hexDigitChar
  split <;> decide

theorem nl_not_mem_escapeChar (c : Char) : '\n' ∉ escapeChar c := by
  intro hmem
  unfold escapeChar at hmem
  by_cases h1 : c = '"'
  · rw [if_pos h1] at hmem; exact absurd hmem (by decide)
  rw [if_neg h1] at hmem
  by_cases h2 : c = '\\'
  · rw [if_pos h2] at hmem; exact absurd hmem (by decide)
  rw [if_neg h2] at hmem
  by_cases h3 : c = Char.ofNat 7
  · rw [if_pos h3] at hmem; exact absurd hmem (by decide)
  rw [if_neg h3] at hmem
  by_cases h4 : c = Char.ofNat 8
  · rw [if_pos h4] at hmem; exact absurd hmem (by decide)
  rw [if_neg h4] at hmem
  by_cases h5 : c = Char.ofNat 12
  · rw [if_pos h5] at hmem; exact absurd hmem (by decide)
  rw [if_neg h5] at hmem
  by_cases h6 : c = '\n'
  · rw [if_pos h6] at hmem; exact absurd hmem (by decide)
  rw [if_neg h6] at hmem
  by_cases h7 : c = Char.ofNat 13
  · rw [if_pos h7] at hmem; exact absurd hmem (by decide)
  rw [if_neg h7] at hmem
  by_cases h8 : c = Char.ofNat 9
  · rw [if_pos h8] at hmem; exact absurd hmem (by decide)
  rw [if_neg h8] at hmem
  by_cases h9 : c = Char.ofNat 11
  · rw [if_pos h9] at hmem; exact absurd hmem (by decide)
  rw [if_neg h9] at hmem
  by_cases h10 : 0x20 ≤ c.toNat ∧ c.toNat ≤ 0x7e
  · rw [if_pos h10] at hmem
    have hc : c = '\n' := (List.mem_singleton.mp hmem).symm
    subst hc
    exact absurd rfl h6
  rw [if_neg h10] at hmem
  by_cases h11 : c.toNat < 0x20 ∨ c.toNat = 0x7f
  · rw [if_pos h11] at hmem
    simp only [List.mem_cons, List.not_mem_nil, or_false] at hmem
    rcases hmem with h | h | h | h
    · exact absurd h (by decide)
    · exact absurd h (by decide)
    · exact hexDigitChar_ne_nl _ h.symm
    · exact hexDigitChar_ne_nl _ h.symm
  rw [if_neg h11] at hmem
  have hc : c = '\n' := (List.mem_singleton.mp hmem).symm
  subst hc
  exact absurd rfl h6

theorem goQuote_no_nl (s : String) : '\n' ∉ goQuote s := by
  intro hmem
  unfold goQuote at hmem
  rcases List.mem_cons.mp hmem with h | h
  · cases h
  · rcases List.mem_append.mp h with h | h
    · rcases List.mem_flatten.mp h with ⟨l, hl, hmeml⟩
      rcases List.mem_map.mp hl with ⟨c, -, rfl⟩
      exact nl_not_mem_escapeChar c hmeml
    · simp at h

theorem nl_not_mem_append {a b : List Char} (ha : '\n' ∉ a) (hb : '\n' ∉ b) :
    '\n' ∉ a ++ b := by
  intro h
  rcases List.mem_append.mp h with h | h
  · exact ha h
  · exact hb h

theorem clean_line_of_head_ne (p : String) (l : List Char) (c : Char)
    (hhead : l.head? = some c) (hc : c ≠ '#') (hnl : '\n' ∉ l) :
    '\n' ∉ l ∧ ¬ endLit p <+: l := by
  refine ⟨hnl, ?_⟩
  cases l with
  | nil => cases hhead
  | cons x xs =>
    intro hp
    rw [endLit_head] at hp
    rcases List.cons_prefix_cons.mp hp with ⟨hx, -⟩
    have hxc : x = c := Option.some.inj hhead
    exact hc (hxc ▸ hx.symm)

theorem clean_line_nil (p : String) :
    '\n' ∉ ([] : List Char) ∧ ¬ endLit p <+: ([] : List Char) := by
  refine ⟨by simp, ?_⟩
  rw [List.prefix_nil, endLit_head]
  intro h
  cases h

theorem mem_ite_list {α : Type} {c : Prop} [Decidable c] {l : List α} {x : α}
    (h : x ∈ (if c then l else [])) : x ∈ l := by
  by_cases hc : c
  · rwa [if_pos hc] at h
  · rw [if_neg hc] at h
    cases h

theorem lookupEnvValue_mem {env : List (String × String)} {k : String}
    (h : k ∈ env.map Prod.fst) : (k, lookupEnvValue env k) ∈ env := by
  induction env with
  | nil => cases h
  | cons kv rest ih =>
    by_cases hk : kv.1 = k
    · have : lookupEnvValue (kv :: rest) k = kv.2 := by
        unfold lookupEnvValue
        rw [List.find?_cons_of_pos _ (by simp [hk])]
        rfl
      rw [this]
      have : kv = (k, kv.2) := by
        rw [← hk]
      rw [← this]
      exact List.mem_cons_self kv rest
    · have : lookupEnvValue (kv :: rest) k = lookupEnvValue rest k := by
        unfold lookupEnvValue
        rw [List.find?_cons_of_neg _ (by simp [hk])]
      rw [this]
      refine List.mem_cons_of_mem _ (ih ?_)
      rcases List.mem_map.mp h with ⟨b, hb, hbk⟩
      rcases List.mem_cons.mp hb with rfl | hb2
      · exact absurd hbk hk
      · exact List.mem_map.mpr ⟨b, hb2, hbk⟩

theorem serverLines_clean (p n : String) (cfg : MCPServerConfig)
    (hclean : ∀ kv ∈ literalEnvOf cfg, '\n' ∉ kv.1.data ∧
      ¬ endLit p <+: envLiteralLine kv.1 kv.2) :
    ∀ l ∈ serverLines n cfg, '\n' ∉ l ∧ ¬ endLit p <+: l := by
  intro l hl
  unfold serverLines at hl
  rcases List.mem_append.mp hl with h4 | h5
  · rcases List.mem_append.mp h4 with h3 | hArgs
    · rcases List.mem_append.mp h3 with h2 | hUrl
      · rcases List.mem_append.mp h2 with hType | hCmd
        · have h := List.mem_singleton.mp (mem_ite_list hType)
          subst h
          refine clean_line_of_head_ne p _ 't' rfl (by decide) ?_
          exact nl_not_mem_append (by decide) (goQuote_no_nl _)
        · have h := List.mem_singleton.mp (mem_ite_list hCmd)
          subst h
          refine clean_line_of_head_ne p _ 'c' rfl (by decide) ?_
          exact nl_not_mem_append (by decide) (goQuote_no_nl _)
      · have h := List.mem_singleton.mp (mem_ite_list hUrl)
        subst h
        refine clean_line_of_head_ne p _ 'u' rfl (by decide) ?_
        exact nl_not_mem_append (by decide) (goQuote_no_nl _)
    · have h := mem_ite_list hArgs
      rcases List.mem_cons.mp h with rfl | h2
      · exact clean_line_of_head_ne p _ 'a' rfl (by decide) (by decide)
      · rcases List.mem_append.mp h2 with hItem | hClose
        · rcases List.mem_map.mp hItem with ⟨a, -, rfl⟩
          refine clean_line_of_head_ne p _ ' ' rfl (by decide) ?_
          exact nl_not_mem_append
            (nl_not_mem_append (by decide) (goQuote_no_nl a)) (by decide)
        · have h3 := List.mem_singleton.mp hClose
          subst h3
          exact clean_line_of_head_ne p _ ']' rfl (by decide) (by decide)
  · have h := mem_ite_list h5
    rcases List.mem_append.mp h with hEnvVars | hLit
    · have h2 := mem_ite_list hEnvVars
      rcases List.mem_cons.mp h2 with rfl | h3
      · exact clean_line_of_head_ne p _ 'e' rfl (by decide) (by decide)
      · rcases List.mem_append.mp h3 with hItem | hClose
        · rcases List.mem_map.mp hItem with ⟨k, -, rfl⟩
          refine clean_line_of_head_ne p _ ' ' rfl (by decide) ?_
          exact nl_not_mem_append
            (nl_not_mem_append (by decide) (goQuote_no_nl k)) (by decide)
        · have h4 := List.mem_singleton.mp hClose
          subst h4
          exact clean_line_of_head_ne p _ ']' rfl (by decide) (by decide)
    · have h2 := mem_ite_list hLit
      rcases List.mem_cons.mp h2 with rfl | h3
      · exact clean_line_nil p
      · rcases List.mem_cons.mp h3 with rfl | h4
        · refine clean_line_of_head_ne p _ '[' rfl (by decide) ?_
          exact nl_not_mem_append
            (nl_not_mem_append (by decide) (goQuote_no_nl n)) (by decide)
        · rcases List.mem_map.mp h4 with ⟨k, hk, rfl⟩
          have hkeys : k ∈ (literalEnvOf cfg).map Prod.fst := by
            have := mem_sortStrings.mp hk
            simpa [literalKeysOf] using this
          have hpair := lookupEnvValue_mem hkeys
          have hc := hclean _ hpair
          refine ⟨?_, hc.2⟩
          show '\n' ∉ envLiteralLine k (lookupEnvValue (literalEnvOf cfg) k)
          unfold envLiteralLine
          exact nl_not_mem_append
            (nl_not_mem_append hc.1 (by decide)) (goQuote_no_nl _)

theorem not_prefix_of_isPrefixOf_false {pat l : List Char}
    (h : pat.isPrefixOf l = false) : ¬ pat <+: l := by
  intro hp
  rw [isPrefixOf_iff_pre.mpr hp] at h
  cases h

/-- Cleanliness of the literal environment keys of every server being
encoded for plugin `p`: no key embeds a newline and no emitted literal line
starts with `p`'s end-marker literal. A Go caller violating this writes a
block whose removal later misfires; see the C1 counterexample. -/
def EnvClean (p : String) (servers : List (String × MCPServerConfig)) : Prop :=
  ∀ b ∈ servers, ∀ kv ∈ literalEnvOf b.2,
    '\n' ∉ kv.1.data ∧
      (endLit p).isPrefixOf (envLiteralLine kv.1 kv.2) = false

instance (p : String) (servers : List (String × MCPServerConfig)) :
    Decidable (EnvClean p servers) := by
  unfold EnvClean
  infer_instance

theorem lookupServer_cases (servers : List (String × MCPServerConfig))
    (n : String) :
    lookupServer servers n = {} ∨ ∃ b ∈ servers, b.2 = lookupServer servers n := by
  unfold lookupServer
  cases hf : servers.find? (fun b => b.1 = n) with
  | none => exact Or.inl rfl
  | some b => exact Or.inr ⟨b, List.mem_of_find?_eq_some hf, rfl⟩

theorem blockBodyLines_clean (p : String)
    (servers : List (String × MCPServerConfig)) (hclean : EnvClean p servers) :
    ∀ l ∈ blockBodyLines servers, '\n' ∉ l ∧ ¬ endLit p <+: l := by
  intro l hl
  unfold blockBodyLines at hl
  rcases List.mem_flatten.mp hl with ⟨chunk, hchunk, hlmem⟩
  rcases List.mem_map.mp hchunk with ⟨nm, -, rfl⟩
  rcases List.mem_cons.mp hlmem with rfl | h2
  · refine clean_line_of_head_ne p _ '[' rfl (by decide) ?_
    exact nl_not_mem_append
      (nl_not_mem_append (by decide) (goQuote_no_nl nm)) (by decide)
  · rcases List.mem_append.mp h2 with h3 | h4
    · refine serverLines_clean p nm _ ?_ l h3
      intro kv hkv
      rcases lookupServer_cases servers nm with heq | ⟨b, hb, heq⟩
      · rw [heq] at hkv
        simp [literalEnvOf] at hkv
      · rw [← heq] at hkv
        have hc := hclean b hb kv hkv
        exact ⟨hc.1, not_prefix_of_isPrefixOf_false hc.2⟩
    · have h5 := List.mem_singleton.mp h4
      subst h5
      exact clean_line_nil p

theorem joinLines_cons (l : List Char) (ls : List (List Char)) :
    joinLines (l :: ls) = l ++ '\n' :: joinLines ls := by
  unfold joinLines
  rw [List.map_cons, List.flatten_cons, List.append_assoc]
  rfl

theorem joinLines_append (a b : List (List Char)) :
    joinLines (a ++ b) = joinLines a ++ joinLines b := by
  unfold joinLines
  rw [List.map_append, List.flatten_append]

theorem joinLines_single (l : List Char) : joinLines [l] = l ++ ['\n'] := by
  unfold joinLines
  simp

theorem generate_decomp (p m : String)
    (servers : List (String × MCPServerConfig)) :
    GenerateMCPServerTOML p m servers =
      '\n' :: ((startLit p ++ (strChars " marketplace=" ++ m.data)) ++
        '\n' :: ((joinLines (blockBodyLines servers) ++ endLit p) ++ ['\n'])) := by
  unfold GenerateMCPServerTOML
  have hnil : joinLines [] = [] := rfl
  simp [joinLines_cons, joinLines_append, joinLines_single, hnil,
    List.append_assoc]

theorem trimRightNL_append_nl (x : List Char) :
    trimRightNL (x ++ ['\n']) = trimRightNL x := by
  unfold trimRightNL
  rw [List.reverse_append]
  rfl

theorem dropWhile_idem (q : Char → Bool) (l : List Char) :
    List.dropWhile q (List.dropWhile q l) = List.dropWhile q l := by
  induction l with
  | nil => rfl
  | cons c cs ih =>
    by_cases hc : q c = true
    · rw [List.dropWhile_cons_of_pos hc]
      exact ih
    · rw [List.dropWhile_cons_of_neg (by simpa using hc),
        List.dropWhile_cons_of_neg (by simpa using hc)]

theorem trimRightNL_idem (x : List Char) :
    trimRightNL (trimRightNL x) = trimRightNL x := by
  unfold trimRightNL
  rw [List.reverse_reverse, dropWhile_idem]

theorem trimRightNL_prefixOf (x : List Char) : trimRightNL x <+: x := by
  unfold trimRightNL
  have h := @List.dropWhile_suffix Char x.reverse (fun c => decide (c = '\n'))
  have := reverse_pre_iff.mpr h
  rwa [List.reverse_reverse] at this

theorem prefix_drop_mono {T R : List Char} (h : T <+: R) (i : Nat) :
    T.drop i <+: R.drop i := by
  rcases h with ⟨k, rfl⟩
  by_cases hi : i ≤ T.length
  · rw [List.drop_append_of_le_length hi]
    exact List.prefix_append _ _
  · have : T.drop i = [] := List.drop_eq_nil_iff.mpr (by omega)
    rw [this]
    exact nil_pre _

/-- Claim C2 counterexample: the compiled start pattern is the quoted
`plugin=<id>` literal followed by `[^\n]*`, and the end pattern is followed
by an optional newline only, so removing plugin `p` also matches the marker
lines of plugin `p2` (whose id has `p` as a proper prefix) and mangles its
block: the text below, holding only `p2`'s block, is not returned unchanged
— it collapses to the residue `2\n`. -/
theorem c2_counterexample :
    RemoveMarkedBlock
      (strChars "# [codex-market:start] plugin=p2 marketplace=m\nx\n# [codex-market:end] plugin=p2\n")
      "p" ≠
      strChars "# [codex-market:start] plugin=p2 marketplace=m\nx\n# [codex-market:end] plugin=p2\n" ∧
    RemoveMarkedBlock
      (strChars "# [codex-market:start] plugin=p2 marketplace=m\nx\n# [codex-market:end] plugin=p2\n")
      "p" = strChars "2\n" := by
  refine ⟨by decide, by decide⟩

/-- Claim C2 amended: matching is anchored to the pluginID as a *prefix* of
the marker's plugin field, not to exact equality, so a block of a plugin
whose id extends `p` may be affected. Under that prefix reading the claimed
behaviour holds: when no start-marker literal for `p` occurs the text is
returned unchanged, and a well-formed block for `p` (no start-literal
occurrence before it or after it, marker lines newline-free, no body line
starting with the end literal) is removed exactly — from its leading blank
line through the end-marker line — leaving everything else untouched. -/
theorem c2_remove_prefix_anchored (p : String) (t A u B : List Char)
    (ls : List (List Char))
    (hp : '\n' ∉ p.data)
    (hA : hasSub A (startLit p) = false)
    (hu : '\n' ∉ u)
    (hls : ∀ l ∈ ls, '\n' ∉ l ∧ ¬ endLit p <+: l)
    (hB : hasSub B (startLit p) = false) :
    (hasSub t (startLit p) = false → RemoveMarkedBlock t p = t) ∧
    RemoveMarkedBlock (A ++ '\n' :: ((startLit p ++ u) ++ '\n' ::
      ((joinLines ls ++ endLit p) ++ '\n' :: B))) p = A ++ B := by
  constructor
  · intro ht
    rw [RemoveMarkedBlock_eq_removeRun]
    exact removeRun_no_occurrence _ ht
  · rw [RemoveMarkedBlock_eq_removeRun]
    have hskip : removeRun (startLit p) (endLit p)
        (A ++ '\n' :: ((startLit p ++ u) ++ '\n' ::
          ((joinLines ls ++ endLit p) ++ '\n' :: B))) =
        A ++ removeRun (startLit p) (endLit p)
          ('\n' :: ((startLit p ++ u) ++ '\n' ::
            ((joinLines ls ++ endLit p) ++ '\n' :: B))) := by
      apply removeRun_append
      intro i
      have h1 := hasSub_false_no_occurrence hA i
      exact not_prefix_extend _ (nl_not_mem_startLit p hp) h1
    rw [hskip]
    have hmatch : matchAt (startLit p) (endLit p)
        ('\n' :: ((startLit p ++ u) ++ '\n' ::
          ((joinLines ls ++ endLit p) ++ '\n' :: B))) = some B := by
      have := @matchAt_block (startLit p) (endLit p) u
        (joinLines ls) ('\n' :: B) ls rfl hu '#'
        (strChars " [codex-market:end]" ++ strChars " plugin=" ++ p.data)
        (endLit_head p) (nl_not_mem_endLit p hp) hls
      have hshape : ('\n' :: (startLit p ++ u ++ '\n' ::
          (joinLines ls ++ endLit p ++ '\n' :: B))) =
          ('\n' :: ((startLit p ++ u) ++ '\n' ::
            ((joinLines ls ++ endLit p) ++ '\n' :: B))) := by
        simp [List.append_assoc]
      rw [hshape] at this
      rw [this]
      rfl
    rw [removeRun_match hmatch, removeRun_no_occurrence _ hB]

/-- Claim C2 amended, witness: a single well-formed block for `p` between
unrelated content `A` and `B` is removed exactly, and a `p`-free text is
left unchanged. -/
theorem c2_remove_prefix_anchored_witness :
    RemoveMarkedBlock
      (strChars "before = 1" ++ '\n' :: ((startLit "p" ++ strChars " marketplace=m") ++ '\n' ::
        ((joinLines [strChars "[mcp_servers.\"a\"]", strChars "command = \"x\""] ++ endLit "p") ++
          '\n' :: strChars "after = 2\n")))
      "p" = strChars "before = 1" ++ strChars "after = 2\n" ∧
    RemoveMarkedBlock (strChars "keep me\n") "p" = strChars "keep me\n" := by
  have h := c2_remove_prefix_anchored "p" (strChars "keep me\n")
    (strChars "before = 1") (strChars " marketplace=m") (strChars "after = 2\n")
    [strChars "[mcp_servers.\"a\"]", strChars "command = \"x\""]
    (by decide) (by decide) (by decide)
    (by
      intro l hl
      rcases List.mem_cons.mp hl with rfl | hl2
      · constructor
        · decide
        · rw [endLit_head]
          intro hpre
          rcases List.cons_prefix_cons.mp hpre with ⟨hx, -⟩
          cases hx
      · rcases List.mem_cons.mp hl2 with rfl | hl3
        · constructor
          · decide
          · rw [endLit_head]
            intro hpre
            rcases List.cons_prefix_cons.mp hpre with ⟨hx, -⟩
            cases hx
        · cases hl3)
    (by decide)
  exact ⟨h.2, h.1 (by decide)⟩

theorem nodup_keys_eq_of_mem {β : Type} {l : List (String × β)}
    (h : (l.map Prod.fst).Nodup) {b b' : String × β}
    (hb : b ∈ l) (hb' : b' ∈ l) (hk : b.1 = b'.1) : b = b' := by
  cases b with
  | mk k v =>
    cases b' with
    | mk k' v' =>
      simp only at hk
      subst hk
      rw [nodup_keys_value_eq h hb hb']

theorem find?_key_eq_of_perm {l l' : List (String × MCPServerConfig)}
    (h : l.Perm l') (hnodup : (l.map Prod.fst).Nodup) (n : String) :
    l.find? (fun b => b.1 = n) = l'.find? (fun b => b.1 = n) := by
  cases hf : l.find? (fun b => b.1 = n) with
  | none =>
    symm
    rw [List.find?_eq_none] at hf ⊢
    intro x hx
    exact hf x (h.symm.subset hx)
  | some b =>
    have hb := List.mem_of_find?_eq_some hf
    have hbk : b.1 = n := by simpa using List.find?_some hf
    cases hf' : l'.find? (fun b => b.1 = n) with
    | none =>
      exfalso
      rw [List.find?_eq_none] at hf'
      exact absurd (by simpa using hbk) (hf' b (h.subset hb))
    | some b' =>
      have hb' := h.symm.subset (List.mem_of_find?_eq_some hf')
      have hb'k : b'.1 = n := by simpa using List.find?_some hf'
      rw [nodup_keys_eq_of_mem hnodup hb hb' (hbk.trans hb'k.symm)]

theorem generate_eq_of_perm (p m : String)
    {servers servers' : List (String × MCPServerConfig)}
    (h : servers.Perm servers') (hnodup : (servers.map Prod.fst).Nodup) :
    GenerateMCPServerTOML p m servers = GenerateMCPServerTOML p m servers' := by
  have hnames : sortedServerNames servers = sortedServerNames servers' :=
    sortStrings_eq_of_perm (h.map Prod.fst)
  have hlookup : ∀ nm, lookupServer servers nm = lookupServer servers' nm := by
    intro nm
    unfold lookupServer
    rw [find?_key_eq_of_perm h hnodup]
  have hbody : blockBodyLines servers = blockBodyLines servers' := by
    unfold blockBodyLines
    rw [hnames]
    congr 1
    exact List.map_congr_left (fun nm _ => by rw [hlookup nm])
  unfold GenerateMCPServerTOML
  rw [hbody]

/-- Claim C1 counterexample: with an absent (hence empty) config file, one
adversarial — but Go-legal — server declaration whose literal env key is the
end-marker line of plugin `p` makes a second identical `AddMCPServers`
produce a different file from the first: the second run's `Remove` step cuts
the freshly written block at the env-key line instead of its end marker. -/
theorem c1_counterexample :
    AddMCPServers
      (AddMCPServers [] "p" "m"
        [("a", { env := [("# [codex-market:end] plugin=p", "v")] })])
      "p" "m" [("a", { env := [("# [codex-market:end] plugin=p", "v")] })] ≠
    AddMCPServers [] "p" "m"
      [("a", { env := [("# [codex-market:end] plugin=p", "v")] })] := by
  decide

/-- Claim C1 amended: `AddMCPServers` applied twice with identical inputs
yields a byte-identical file provided the inputs are marker-clean — the
plugin and marketplace names embed no newline, the file text after the
`Remove` step contains no further occurrence of the plugin's start-marker
literal, and no literal env key embeds a newline or starts a line with the
plugin's end-marker literal (the counterexample shows the claim fails
without these conditions). The generated block is otherwise a deterministic
function of (pluginName, marketplace, servers): it is invariant under
permutation of the server map and emits server names sorted
lexicographically. -/
theorem c1_addMCPServers_idempotent (t : List Char) (p m : String)
    (servers servers' : List (String × MCPServerConfig))
    (hp : '\n' ∉ p.data) (hm : '\n' ∉ m.data)
    (hclean : hasSub (RemoveMarkedBlock t p) (startLit p) = false)
    (henv : EnvClean p servers)
    (hperm : servers.Perm servers')
    (hnodup : (servers.map Prod.fst).Nodup) :
    AddMCPServers (AddMCPServers t p m servers) p m servers =
      AddMCPServers t p m servers ∧
    GenerateMCPServerTOML p m servers = GenerateMCPServerTOML p m servers' ∧
    List.Pairwise (fun a b => strLeb a b = true) (sortedServerNames servers) := by
  refine ⟨?_, generate_eq_of_perm p m hperm hnodup, sorted_sortStrings _⟩
  have hTocc : ∀ i, ¬ startLit p <+:
      (trimRightNL (RemoveMarkedBlock t p)).drop i := by
    intro i hpre
    have hTpre : trimRightNL (RemoveMarkedBlock t p) <+: RemoveMarkedBlock t p :=
      trimRightNL_prefixOf _
    exact hasSub_false_no_occurrence hclean i (hpre.trans (prefix_drop_mono hTpre i))
  have hdecomp := generate_decomp p m servers
  have haddonce : AddMCPServers t p m servers =
      (trimRightNL (RemoveMarkedBlock t p) ++ ['\n']) ++
        GenerateMCPServerTOML p m servers := by
    unfold AddMCPServers
    simp [List.append_assoc]
  have hskipobl : ∀ i, ¬ startLit p <+:
      ((trimRightNL (RemoveMarkedBlock t p) ++ ['\n']).drop i ++
        GenerateMCPServerTOML p m servers) := by
    intro i
    by_cases hi : i ≤ (trimRightNL (RemoveMarkedBlock t p)).length
    · rw [List.drop_append_of_le_length hi, hdecomp]
      have := not_prefix_extend
        (('\n' :: ((startLit p ++ (strChars " marketplace=" ++ m.data)) ++
          '\n' :: ((joinLines (blockBodyLines servers) ++ endLit p) ++ ['\n']))))
        (nl_not_mem_startLit p hp) (hTocc i)
      simpa [List.append_assoc] using this
    · have hdrop : (trimRightNL (RemoveMarkedBlock t p) ++ ['\n']).drop i = [] :=
        List.drop_eq_nil_iff.mpr (by simp; omega)
      rw [hdrop, List.nil_append, hdecomp, startLit_head]
      intro hpre
      rcases List.cons_prefix_cons.mp hpre with ⟨hx, -⟩
      cases hx
  have hmatch : matchAt (startLit p) (endLit p)
      (GenerateMCPServerTOML p m servers) = some [] := by
    rw [hdecomp]
    have := @matchAt_block (startLit p) (endLit p)
      (strChars " marketplace=" ++ m.data)
      (joinLines (blockBodyLines servers)) ['\n'] (blockBodyLines servers) rfl
      (nl_not_mem_append (by decide) hm) '#'
      (strChars " [codex-market:end]" ++ strChars " plugin=" ++ p.data)
      (endLit_head p) (nl_not_mem_endLit p hp)
      (blockBodyLines_clean p servers henv)
    have hshape : ('\n' :: (startLit p ++ (strChars " marketplace=" ++ m.data) ++
        '\n' :: (joinLines (blockBodyLines servers) ++ endLit p ++ ['\n']))) =
        ('\n' :: ((startLit p ++ (strChars " marketplace=" ++ m.data)) ++
          '\n' :: ((joinLines (blockBodyLines servers) ++ endLit p) ++ ['\n']))) := by
      simp [List.append_assoc]
    rw [hshape] at this
    rw [this]
    rfl
  have hremove : RemoveMarkedBlock (AddMCPServers t p m servers) p =
      trimRightNL (RemoveMarkedBlock t p) ++ ['\n'] := by
    rw [haddonce, RemoveMarkedBlock_eq_removeRun,
      removeRun_append _ _ hskipobl, removeRun_match hmatch, removeRun_nil,
      List.append_nil]
  show trimRightNL (RemoveMarkedBlock (AddMCPServers t p m servers) p) ++
      '\n' :: GenerateMCPServerTOML p m servers = _
  rw [hremove, trimRightNL_append_nl, trimRightNL_idem]
  rw [haddonce]
  simp [List.append_assoc]

/-- Claim C1 amended, witness: a clean two-server declaration written twice
onto an initially absent file. -/
theorem c1_addMCPServers_idempotent_witness :
    AddMCPServers
      (AddMCPServers [] "p" "m"
        [("b", { url := "http://x" }),
         ("a", { command := "npx", args := ["-y"],
                 env := [("TOKEN", "$FMT_TOKEN"), ("K", "lit")] })])
      "p" "m"
      [("b", { url := "http://x" }),
       ("a", { command := "npx", args := ["-y"],
               env := [("TOKEN", "$FMT_TOKEN"), ("K", "lit")] })] =
    AddMCPServers [] "p" "m"
      [("b", { url := "http://x" }),
       ("a", { command := "npx", args := ["-y"],
               env := [("TOKEN", "$FMT_TOKEN"), ("K", "lit")] })] ∧
    GenerateMCPServerTOML "p" "m"
      [("b", { url := "http://x" }),
       ("a", { command := "npx", args := ["-y"],
               env := [("TOKEN", "$FMT_TOKEN"), ("K", "lit")] })] =
    GenerateMCPServerTOML "p" "m"
      [("a", { command := "npx", args := ["-y"],
               env := [("TOKEN", "$FMT_TOKEN"), ("K", "lit")] }),
       ("b", { url := "http://x" })] := by
  have h := c1_addMCPServers_idempotent [] "p" "m"
    [("b", { url := "http://x" }),
     ("a", { command := "npx", args := ["-y"],
             env := [("TOKEN", "$FMT_TOKEN"), ("K", "lit")] })]
    [("a", { command := "npx", args := ["-y"],
             env := [("TOKEN", "$FMT_TOKEN"), ("K", "lit")] }),
     ("b", { url := "http://x" })]
    (by decide) (by decide) (by decide) (by decide)
    (List.Perm.swap _ _ _) (by decide)
  exact ⟨h.1, h.2.1⟩
